import Mathlib

set_option maxRecDepth 65536

set_option maxHeartbeats 1000000

/-!
Shallow embedding of `src/twixread.c` (Siemens twix `.dat` reader).

The file is modelled as a list of bytes (`Nat` values; a real file has
entries `< 256`).  Reads are explicit-position operations returning
`Except Err`; the stream position is threaded through the functions, which
mirrors the single sequential read cursor of the C program.

External collaborators that are not part of `src/` (the `md_*`
multidimensional-array library, `create_cfl`) are modelled from the spec and
marked as such in their doc comments.
-/

namespace Twix

abbrev Byte := Nat

abbrev File := List Byte

/-- The bytes `[p, p+n)` of the file, or `none` on a short read. -/
def bytesAt (f : File) (p n : Nat) : Option (List Byte) :=
  if p + n ≤ f.length then some ((f.drop p).take n) else none

/-- Fatal error classes of the program: `io` for `error("reading file")`
(short read in `xread`), `fmt` for `error("wrong number of samples")`, and
`assertFail` for a failing `assert`. -/
inductive Err where
  | io : Err
  | fmt : Err
  | assertFail : Err
deriving DecidableEq, Repr

/-- `xread` from the source: read exactly `n` bytes at position `p`;
a short read is the fatal error `error("reading file")`.  Returns the bytes
and the advanced position. -/
def xread (f : File) (p n : Nat) : Except Err (List Byte × Nat) :=
  match bytesAt f p n with
  | some bs => .ok (bs, p + n)
  | none => .error .io

/-- Little-endian 16-bit decode at byte index `k`. -/
def u16le (l : List Byte) (k : Nat) : Nat :=
  l.getD k 0 + 256 * l.getD (k + 1) 0

/-- Little-endian 32-bit decode at byte index `k`. -/
def u32le (l : List Byte) (k : Nat) : Nat :=
  u16le l k + 65536 * u16le l (k + 2)

/-- Little-endian 64-bit decode at byte index `k`. -/
def u64le (l : List Byte) (k : Nat) : Nat :=
  u32le l k + 4294967296 * u32le l (k + 4)

/-- `struct hdr_s`: four `uint32_t` fields followed by one `uint64_t`;
24 bytes, field offsets 0, 4, 8, 12, 16. -/
structure Hdr where
  offset : Nat
  nscans : Nat
  measid : Nat
  fileid : Nat
  datoff : Nat
deriving DecidableEq, Repr

/-- Decode `struct hdr_s` from its 24 raw bytes (little-endian). -/
def decodeHdr (bs : List Byte) : Hdr :=
  { offset := u32le bs 0
    nscans := u32le bs 4
    measid := u32le bs 8
    fileid := u32le bs 12
    datoff := u64le bs 16 }

/-- `siemens_meas_setup`: seek to 0, read the 24-byte leading header, apply
the VD heuristic `offset < 10000 && nscans < 64`; on VD seek to `datoff` and
re-read the 4-byte `offset` field there; on VB force `nscans = 1`; finally
position the stream at `base + offset`.  Returns the layout flag, the final
header and the stream position. -/
def siemens_meas_setup (f : File) : Except Err (Bool × Hdr × Nat) :=
  match xread f 0 24 with
  | .error e => .error e
  | .ok r =>
    let hdr := decodeHdr r.1
    if (hdr.offset < 10000) ∧ (hdr.nscans < 64) then
      match xread f hdr.datoff 4 with
      | .error e => .error e
      | .ok r2 =>
        let hdr2 : Hdr := { hdr with offset := u32le r2.1 0 }
        .ok (true, hdr2, hdr.datoff + hdr2.offset)
    else
      .ok (false, { hdr with nscans := 1 }, hdr.offset)

/-- `struct mdh2` (second part of the measurement data header): 60 bytes;
`evalinfo : uint32_t[2]` at offset 0, `samples : uint16_t` at offset 8,
`channels : uint16_t` at offset 10, `sLC : uint16_t[14]` at offset 12,
then `dummy1[2]`, `clmnctr`, `dummy2[5]`, `linectr` (offset 56), `partctr`
(offset 58).  Only the fields the program uses are kept; `sLC` is a
function of the counter index (meaningful for indices `0..13`). -/
structure Mdh where
  samples : Nat
  channels : Nat
  sLC : Nat → Nat
  linectr : Nat
  partctr : Nat

/-- Decode `struct mdh2` from its 60 raw bytes (little-endian). -/
def decodeMdh (bs : List Byte) : Mdh :=
  { samples := u16le bs 8
    channels := u16le bs 10
    sLC := fun i => u16le bs (12 + 2 * i)
    linectr := u16le bs 56
    partctr := u16le bs 58 }

/-- Modelled from the spec: rank of the external array library's arrays
(`DIMS` of `num/multind.h`, outside `src/`). -/
def DIMS : Nat := 16

/-- Modelled from the spec: dimension indices named by the external headers
(`misc/mri.h`, outside `src/`).  Only their distinctness matters. -/
def READ_DIM : Fin 16 := 0

def PHS1_DIM : Fin 16 := 1

def PHS2_DIM : Fin 16 := 2

def COIL_DIM : Fin 16 := 3

def TE_DIM : Fin 16 := 5

def TIME_DIM : Fin 16 := 10

def TIME2_DIM : Fin 16 := 11

def SLICE_DIM : Fin 16 := 13

/-- A full-rank index (or shape) for the output array. -/
abbrev Coord := Fin 16 → Nat

/-- The all-zero coordinate, `long pos[DIMS] = { [0 ... DIMS - 1] = 0 }`. -/
def zeroCoord : Coord := fun _ => 0

/-- Modelled from the spec: `md_is_index` of the external array library
checks that a coordinate is in-bounds for a shape. -/
def md_is_index (pos dims : Coord) : Bool :=
  decide (∀ i, pos i < dims i)

/-- The per-record sample block, indexed by sample position
(`channel * dims[READ_DIM] + sample`); each entry is the 8 raw bytes of one
complex float. -/
abbrev Buf := Nat → List Byte

/-- Writing `n` samples (`8 * n` raw bytes `bs`) into the block at sample
offset `off`, as `xread` into `buf + off` does. -/
def writeSamples (buf : Buf) (off n : Nat) (bs : List Byte) : Buf :=
  fun i => if off ≤ i ∧ i < off + n then (bs.drop (8 * (i - off))).take 8 else buf i

/-- The coordinate updates performed for the first channel (`c == 0`):
`pos[PHS1_DIM] = sLC[0]`, `pos[SLICE_DIM] = sLC[2]`, `pos[PHS2_DIM] = sLC[3]`,
`pos[TE_DIM] = sLC[4]`, `pos[TIME_DIM] = sLC[6]`, `pos[TIME2_DIM] = sLC[7]`.
No center correction (`linectr`/`partctr`) is applied. -/
def setCoord (pos : Coord) (m : Mdh) : Coord :=
  Function.update
    (Function.update
      (Function.update
        (Function.update
          (Function.update
            (Function.update pos PHS1_DIM (m.sLC 0))
            SLICE_DIM (m.sLC 2))
          PHS2_DIM (m.sLC 3))
        TE_DIM (m.sLC 4))
      TIME_DIM (m.sLC 6))
    TIME2_DIM (m.sLC 7)

/-- Size of the per-channel header: `vd ? 32 : 128`. -/
def chanHdrSize (vd : Bool) : Nat := if vd then 32 else 128

/-- Size of the per-record scan header: `vd ? 192 : 0`. -/
def scanHdrSize (vd : Bool) : Nat := if vd then 192 else 0

/-- The channel loop of `siemens_adc_read`: for each channel index `c`
(with `rem` channels remaining) set `pos[COIL_DIM] = c`, read the channel
header, decode the `mdh2` block (from byte 40 of the scan header for VD,
byte 20 of this channel's header for VB), derive the coordinate when
`c == 0`, check `dims[READ_DIM] == mdh.samples`, assert `md_is_index`, and
read `dims[READ_DIM]` complex samples into the block at offset
`c * dims[READ_DIM]`. -/
def adcChanLoop (vd : Bool) (f : File) (dims : Coord) (scan : List Byte) :
    Nat → Nat → Nat → Coord → Buf → Except Err (Nat × Coord × Buf)
  | 0, _, p, pos, buf => .ok (p, pos, buf)
  | rem + 1, c, p, pos, buf =>
    match xread f p (chanHdrSize vd) with
    | .error e => .error e
    | .ok rch =>
      let mdh := decodeMdh (if vd then (scan.drop 40).take 60 else (rch.1.drop 20).take 60)
      let pos2 := if c = 0 then setCoord (Function.update pos COIL_DIM c) mdh
        else Function.update pos COIL_DIM c
      if dims READ_DIM ≠ mdh.samples then
        .error .fmt
      else if md_is_index pos2 dims = false then
        .error .assertFail
      else
        match xread f rch.2 (dims READ_DIM * 8) with
        | .error e => .error e
        | .ok rsb =>
          adcChanLoop vd f dims scan rem (c + 1) rsb.2 pos2
            (writeSamples buf (c * dims READ_DIM) (dims READ_DIM) rsb.1)

/-- `siemens_adc_read`: read the scan header (192 bytes for VD, 0 for VB),
run the channel loop for `dims[COIL_DIM]` channels, then reset
`pos[COIL_DIM] = 0`. -/
def siemens_adc_read (vd : Bool) (f : File) (p : Nat) (dims pos : Coord)
    (buf : Buf) : Except Err (Nat × Coord × Buf) :=
  match xread f p (scanHdrSize vd) with
  | .error e => .error e
  | .ok rs =>
    match adcChanLoop vd f dims rs.1 (dims COIL_DIM) 0 rs.2 pos buf with
    | .error e => .error e
    | .ok r => .ok (r.1, Function.update r.2.1 COIL_DIM 0, r.2.2)

/-- The output array: raw 8-byte complex values addressed by full-rank
coordinates. -/
abbrev Out := Coord → List Byte

/-- A zero complex float: 8 zero bytes. -/
def zeroSample : List Byte := List.replicate 8 0

/-- Modelled from the spec: `create_cfl` hands the driver a zero-initialized
dense output buffer (the array library is outside `src/`). -/
def zeroOut : Out := fun _ => zeroSample

/-- The destination region of one record's block: the indices that agree
with the record's coordinate on every axis other than read and coil and are
within the block's extent on those two axes. -/
def coversP (dims pos idx : Coord) : Prop :=
  (∀ i, i ≠ READ_DIM → i ≠ COIL_DIM → idx i = pos i) ∧
    idx READ_DIM < dims READ_DIM ∧ idx COIL_DIM < dims COIL_DIM

instance (dims pos idx : Coord) : Decidable (coversP dims pos idx) := by
  unfold coversP; exact inferInstance

/-- Modelled from the spec (Placement Engine, `md_copy_block` with the
block shaped by `READ_FLAG|COIL_FLAG`): for each coil `c` and read index
`r`, `output[coordinate with read = r, coil = c, ...] = block[c * read_extent + r]`;
every other element is untouched.  The array library is outside `src/`. -/
def md_copy_block (dims pos : Coord) (out : Out) (buf : Buf) : Out :=
  fun idx =>
    if coversP dims pos idx then
      buf (idx COIL_DIM * dims READ_DIM + idx READ_DIM)
    else
      out idx

/-- Result of the driver loop: the output array, the error that stopped the
run (if any), and the final stream position. -/
structure RunState where
  out : Out
  err : Option Err
  pos : Nat

/-- The driver loop of `main`: `while (adcs--)` — reset `pos` to all zeros,
call `siemens_adc_read`, then `md_copy_block` the record's block into the
output.  A fatal error stops the run with the output as written so far. -/
def driverLoop (vd : Bool) (f : File) (dims : Coord) :
    Nat → Nat → Buf → Out → RunState
  | 0, p, _, out => ⟨out, none, p⟩
  | n + 1, p, buf, out =>
    match siemens_adc_read vd f p dims zeroCoord buf with
    | .error e => ⟨out, some e, p⟩
    | .ok (p2, pos2, buf2) =>
      driverLoop vd f dims n p2 buf2 (md_copy_block dims pos2 out buf2)

/-- The record-count default of `main`:
`if (0 == adcs) adcs = dims[PHS1_DIM] * dims[PHS2_DIM] * dims[SLICE_DIM]`
(`adcs == 0` is the sentinel for "not supplied on the command line"). -/
def effAdcs (adcs : Nat) (dims : Coord) : Nat :=
  if adcs = 0 then dims PHS1_DIM * dims PHS2_DIM * dims SLICE_DIM else adcs

/-- `main` after argument parsing: run the header detector, then the driver
loop for `effAdcs adcs dims` records starting from the detected position. -/
def twixread_main (adcs : Nat) (dims : Coord) (buf0 : Buf) (f : File) :
    Except Err RunState :=
  match siemens_meas_setup f with
  | .error e => .error e
  | .ok (vd, _, start) => .ok (driverLoop vd f dims (effAdcs adcs dims) start buf0 zeroOut)

/-! Derived descriptions of the binary layout, used to state theorems. -/

/-- The leading header as decoded from the file's first 24 bytes. -/
def hdrOf (f : File) : Hdr := decodeHdr (f.take 24)

/-- The VD/VB discriminator on the raw first-read header values:
`offset < 10000 && nscans < 64`. -/
def vdPred (f : File) : Prop := (hdrOf f).offset < 10000 ∧ (hdrOf f).nscans < 64

instance (f : File) : Decidable (vdPred f) := by
  unfold vdPred; exact inferInstance

/-- The `offset` value re-read at `datoff` in the VD branch. -/
def rereadOff (f : File) : Nat := u32le ((f.drop (hdrOf f).datoff).take 4) 0

/-- Bytes consumed per channel: channel header plus `R` 8-byte samples. -/
def chanStride (vd : Bool) (R : Nat) : Nat := chanHdrSize vd + R * 8

/-- Bytes consumed per record: scan header plus `C` channel strides. -/
def recSize (vd : Bool) (R C : Nat) : Nat := scanHdrSize vd + C * chanStride vd R

/-- Stream position of channel `c`'s header within a record starting at `p`. -/
def chanPos (vd : Bool) (R p c : Nat) : Nat := p + scanHdrSize vd + c * chanStride vd R

/-- The 60 `mdh2` bytes governing channel `c` of the record at `p`:
byte offset 40 of the scan header for VD (independent of `c`), byte offset
20 of channel `c`'s own header for VB. -/
def recMdhBytes (vd : Bool) (f : File) (R p c : Nat) : List Byte :=
  if vd then (f.drop (p + 40)).take 60 else (f.drop (chanPos vd R p c + 20)).take 60

/-- The decoded `mdh2` governing channel `c` of the record at `p`. -/
def recMdh (vd : Bool) (f : File) (R p c : Nat) : Mdh :=
  decodeMdh (recMdhBytes vd f R p c)

/-- The `mdh2` the channel loop decodes for the channel whose header is at
position `q`, given the scan-header bytes `scan`. -/
def chanMdhAt (vd : Bool) (f : File) (scan : List Byte) (q : Nat) : Mdh :=
  decodeMdh (if vd then (scan.drop 40).take 60 else (f.drop (q + 20)).take 60)

/-- The coordinate `siemens_adc_read` derives at its first channel when
started from `pos0`. -/
def derivedAt (vd : Bool) (f : File) (p : Nat) (dims pos0 : Coord) : Coord :=
  setCoord (Function.update pos0 COIL_DIM 0) (recMdh vd f (dims READ_DIM) p 0)

/-! Synthetic-input serializer, used for the round-trip theorem. -/

/-- Little-endian 16-bit encoding. -/
def enc16 (n : Nat) : List Byte := [n % 256, n / 256]

/-- Serialize a 60-byte `mdh2` block: `evalinfo` zeroed, `samples = R`,
`channels = C`, the 14 loop counters, and zeroed trailing fields. -/
def mkMdh (R C : Nat) (cnt : Nat → Nat) : List Byte :=
  List.replicate 8 0 ++ enc16 R ++ enc16 C ++
    (enc16 (cnt 0) ++ enc16 (cnt 1) ++ enc16 (cnt 2) ++ enc16 (cnt 3) ++
      enc16 (cnt 4) ++ enc16 (cnt 5) ++ enc16 (cnt 6) ++ enc16 (cnt 7) ++
      enc16 (cnt 8) ++ enc16 (cnt 9) ++ enc16 (cnt 10) ++ enc16 (cnt 11) ++
      enc16 (cnt 12) ++ enc16 (cnt 13)) ++ List.replicate 20 0

/-- Serialize one channel: a VD channel header is 32 opaque bytes; a VB
channel header is 128 bytes carrying the `mdh2` block at byte offset 20. -/
def mkChan (vd : Bool) (mdh samp : List Byte) : List Byte :=
  if vd then List.replicate 32 0 ++ samp
  else List.replicate 20 0 ++ mdh ++ List.replicate 48 0 ++ samp

/-- Serialize the scan header: 192 bytes for VD with the `mdh2` block at
byte offset 40; VB has no scan header. -/
def mkScan (vd : Bool) (mdh : List Byte) : List Byte :=
  if vd then List.replicate 40 0 ++ mdh ++ List.replicate 92 0 else []

/-- One synthetic record: its 14 loop counters and its per-channel sample
bytes (one list of `8 * R` raw bytes per channel). -/
structure SynRec where
  cnt : Nat → Nat
  samps : List (List Byte)

/-- Serialize one record. -/
def mkRecord (vd : Bool) (R C : Nat) (r : SynRec) : List Byte :=
  mkScan vd (mkMdh R C r.cnt) ++ (r.samps.map (mkChan vd (mkMdh R C r.cnt))).flatten

/-- Serialize a sequence of records. -/
def synBytes (vd : Bool) (R C : Nat) (recs : List SynRec) : List Byte :=
  (recs.map (mkRecord vd R C)).flatten

/-- The coordinate the spec derives from a record's loop counters:
phase1 from counter 0, slice from counter 2, phase2 from counter 3, echo
from counter 4, time from counter 6, time2 from counter 7, zero on every
other axis. -/
def specCoord (cnt : Nat → Nat) : Coord := fun i =>
  if i = PHS1_DIM then cnt 0
  else if i = SLICE_DIM then cnt 2
  else if i = PHS2_DIM then cnt 3
  else if i = TE_DIM then cnt 4
  else if i = TIME_DIM then cnt 6
  else if i = TIME2_DIM then cnt 7
  else 0

/-- A record's coordinate with the read and coil axes positioned. -/
def updCoord (pos : Coord) (r c : Nat) : Coord :=
  Function.update (Function.update pos READ_DIM r) COIL_DIM c

/-- The ideal per-record block of a synthetic record: sample index
`c * R + r` holds bytes `8 * r .. 8 * r + 8` of channel `c`'s sample data. -/
def idealBuf (R : Nat) (r : SynRec) : Buf :=
  fun i => ((r.samps.getD (i / R) []).drop (8 * (i % R))).take 8

/-- The output array after placing every synthetic record in order. -/
def placedOut (dims : Coord) (recs : List SynRec) (out0 : Out) : Out :=
  recs.foldl (fun o r => md_copy_block dims (specCoord r.cnt) o (idealBuf (dims READ_DIM) r)) out0

/-- Byte positions of the per-channel headers of a VD record at `p`. -/
def inChanHdrVD (R C p i : Nat) : Prop :=
  ∃ c, c < C ∧ chanPos true R p c ≤ i ∧ i < chanPos true R p c + 32

/-- Byte positions of the per-channel headers of `n` consecutive VD records
starting at `start`. -/
def inChanHdrVDRun (R C start n i : Nat) : Prop :=
  ∃ k, k < n ∧ inChanHdrVD R C (start + k * recSize true R C) i

/-! Concrete fixtures used to witness the theorems: the spec's end-to-end
example shape (read extent 1, one coil, two records at phase1 0 and 1). -/

/-- Witness shape: read extent 1, phase1 extent 2, every other extent 1. -/
def wDims : Coord := fun i => if i = READ_DIM then 1 else if i = PHS1_DIM then 2 else 1

/-- Witness record at phase1 = 0. -/
def wRecA : SynRec := ⟨fun _ => 0, [[9, 10, 11, 12, 13, 14, 15, 16]]⟩

/-- Witness record at phase1 = 1. -/
def wRecB : SynRec := ⟨fun i => if i = 0 then 1 else 0, [[1, 2, 3, 4, 5, 6, 7, 8]]⟩

/-- The two witness records. -/
def wRecs : List SynRec := [wRecA, wRecB]

/-- An uninitialized per-record block (contents never read before write). -/
def wBuf : Buf := fun _ => []

/-- A synthetic VB file: leading header with `offset = 24` (records follow
immediately) and `nscans = 64` (so the VD predicate fails), then records. -/
def wVBFile (recs : List SynRec) : File :=
  (enc16 24 ++ enc16 0 ++ enc16 64 ++ enc16 0 ++ List.replicate 16 0) ++
    synBytes false 1 1 recs

/-- A crafted VB record whose `mdh2` carries `samples = 2`. -/
def wBadRec : SynRec := ⟨fun _ => 0, [[1, 2, 3, 4, 5, 6, 7, 8, 21, 22, 23, 24, 25, 26, 27, 28]]⟩

/-- A crafted VB record whose derived coordinate (phase1 = 5) is out of
bounds for `wDims`. -/
def wOobRec : SynRec := ⟨fun i => if i = 0 then 5 else 0, [[1, 2, 3, 4, 5, 6, 7, 8]]⟩

/-- Final stream position of a successful record read (0 on error). -/
def okPos (r : Except Err (Nat × Coord × Buf)) : Nat :=
  match r with
  | .ok res => res.1
  | .error _ => 0

/-- Returned coordinate of a successful record read (zero on error). -/
def okCoord (r : Except Err (Nat × Coord × Buf)) (i : Fin 16) : Nat :=
  match r with
  | .ok res => res.2.1 i
  | .error _ => 0

/-- A synthetic VD file: leading header with `offset = 4 < 10000`,
`nscans = 1 < 64` and `datoff = 24`; the re-read offset at byte 24 is 4, so
records start at byte 28. -/
def wVDFile (recs : List SynRec) : File :=
  (enc16 4 ++ enc16 0 ++ enc16 1 ++ enc16 0 ++ List.replicate 8 0 ++
    (enc16 24 ++ enc16 0 ++ List.replicate 4 0)) ++
  ((enc16 4 ++ enc16 0) ++ synBytes true 1 1 recs)

/-! Basic facts about reads and little-endian decoding. -/

theorem bytesAt_eq_some (f : File) (p n : Nat) (h : p + n ≤ f.length) :
    bytesAt f p n = some ((f.drop p).take n) := by
  unfold bytesAt
  rw [if_pos h]

theorem xread_eq_ok (f : File) (p n : Nat) (h : p + n ≤ f.length) :
    xread f p n = .ok ((f.drop p).take n, p + n) := by
  unfold xread
  rw [bytesAt_eq_some f p n h]

theorem xread_eq_err (f : File) (p n : Nat) (h : f.length < p + n) :
    xread f p n = .error .io := by
  unfold xread bytesAt
  rw [if_neg (by omega)]

theorem take_drop_take (f : File) (q a n m : Nat) (h : a + n ≤ m) :
    (((f.drop q).take m).drop a).take n = (f.drop (q + a)).take n := by
  rw [List.drop_take, List.drop_drop, List.take_take]
  congr 1
  exact Nat.min_eq_left (by omega)

theorem drop_append_len (A B : List Byte) (k : Nat) :
    (A ++ B).drop (A.length + k) = B.drop k := by
  simp [List.drop_append]

theorem extract_within (A B : List Byte) (k n : Nat) (h : k + n ≤ A.length) :
    ((A ++ B).drop k).take n = (A.drop k).take n := by
  have h1 : k ≤ A.length := by omega
  rw [List.drop_append_of_le_length h1]
  have h2 : n ≤ (A.drop k).length := by rw [List.length_drop]; omega
  rw [List.take_append_of_le_length h2]

theorem u16le_append_right (A B : List Byte) (k : Nat) (h : A.length ≤ k) :
    u16le (A ++ B) k = u16le B (k - A.length) := by
  unfold u16le
  rw [List.getD_append_right A B 0 k h, List.getD_append_right A B 0 (k + 1) (by omega),
    show k + 1 - A.length = k - A.length + 1 from by omega]

theorem u16le_append_left (A B : List Byte) (k : Nat) (h : k + 2 ≤ A.length) :
    u16le (A ++ B) k = u16le A k := by
  unfold u16le
  rw [List.getD_append A B 0 k (by omega), List.getD_append A B 0 (k + 1) (by omega)]

theorem u16le_enc16 (n : Nat) (B : List Byte) : u16le (enc16 n ++ B) 0 = n := by
  simp [u16le, enc16]
  exact Nat.mod_add_div n 256

theorem enc16_length (n : Nat) : (enc16 n).length = 2 := rfl

theorem mkMdh_length (R C : Nat) (cnt : Nat → Nat) : (mkMdh R C cnt).length = 60 := by
  simp [mkMdh, enc16]

theorem u16le_skip (A B : List Byte) (k j : Nat) (hA : A.length = j) (h : j ≤ k) :
    u16le (A ++ B) k = u16le B (k - j) := by
  rw [u16le_append_right A B k (by omega), hA]

theorem mkMdh_samples (R C : Nat) (cnt : Nat → Nat) : u16le (mkMdh R C cnt) 8 = R := by
  simp only [mkMdh, List.append_assoc]
  rw [u16le_skip (List.replicate 8 0) _ 8 8 rfl (by omega)]
  norm_num
  rw [u16le_enc16]

theorem mkMdh_cnt0 (R C : Nat) (cnt : Nat → Nat) : u16le (mkMdh R C cnt) 12 = cnt 0 := by
  simp only [mkMdh, List.append_assoc]
  rw [u16le_skip (List.replicate 8 0) _ 12 8 rfl (by omega)]
  rw [u16le_skip (enc16 R) _ (12 - 8) 2 rfl (by omega)]
  rw [u16le_skip (enc16 C) _ (12 - 8 - 2) 2 rfl (by omega)]
  norm_num
  rw [u16le_enc16]

theorem mkMdh_cnt2 (R C : Nat) (cnt : Nat → Nat) : u16le (mkMdh R C cnt) 16 = cnt 2 := by
  simp only [mkMdh, List.append_assoc]
  rw [u16le_skip (List.replicate 8 0) _ 16 8 rfl (by omega)]
  rw [u16le_skip (enc16 R) _ (16 - 8) 2 rfl (by omega)]
  rw [u16le_skip (enc16 C) _ (16 - 8 - 2) 2 rfl (by omega)]
  rw [u16le_skip (enc16 (cnt 0)) _ (16 - 8 - 2 - 2) 2 rfl (by omega)]
  rw [u16le_skip (enc16 (cnt 1)) _ (16 - 8 - 2 - 2 - 2) 2 rfl (by omega)]
  norm_num
  rw [u16le_enc16]

theorem mkMdh_cnt3 (R C : Nat) (cnt : Nat → Nat) : u16le (mkMdh R C cnt) 18 = cnt 3 := by
  simp only [mkMdh, List.append_assoc]
  rw [u16le_skip (List.replicate 8 0) _ 18 8 rfl (by omega)]
  rw [u16le_skip (enc16 R) _ (18 - 8) 2 rfl (by omega)]
  rw [u16le_skip (enc16 C) _ (18 - 8 - 2) 2 rfl (by omega)]
  rw [u16le_skip (enc16 (cnt 0)) _ (18 - 8 - 2 - 2) 2 rfl (by omega)]
  rw [u16le_skip (enc16 (cnt 1)) _ (18 - 8 - 2 - 2 - 2) 2 rfl (by omega)]
  rw [u16le_skip (enc16 (cnt 2)) _ (18 - 8 - 2 - 2 - 2 - 2) 2 rfl (by omega)]
  norm_num
  rw [u16le_enc16]

theorem mkMdh_cnt4 (R C : Nat) (cnt : Nat → Nat) : u16le (mkMdh R C cnt) 20 = cnt 4 := by
  simp only [mkMdh, List.append_assoc]
  rw [u16le_skip (List.replicate 8 0) _ 20 8 rfl (by omega)]
  rw [u16le_skip (enc16 R) _ (20 - 8) 2 rfl (by omega)]
  rw [u16le_skip (enc16 C) _ (20 - 8 - 2) 2 rfl (by omega)]
  rw [u16le_skip (enc16 (cnt 0)) _ (20 - 8 - 2 - 2) 2 rfl (by omega)]
  rw [u16le_skip (enc16 (cnt 1)) _ (20 - 8 - 2 - 2 - 2) 2 rfl (by omega)]
  rw [u16le_skip (enc16 (cnt 2)) _ (20 - 8 - 2 - 2 - 2 - 2) 2 rfl (by omega)]
  rw [u16le_skip (enc16 (cnt 3)) _ (20 - 8 - 2 - 2 - 2 - 2 - 2) 2 rfl (by omega)]
  norm_num
  rw [u16le_enc16]

theorem mkMdh_cnt6 (R C : Nat) (cnt : Nat → Nat) : u16le (mkMdh R C cnt) 24 = cnt 6 := by
  simp only [mkMdh, List.append_assoc]
  rw [u16le_skip (List.replicate 8 0) _ 24 8 rfl (by omega)]
  rw [u16le_skip (enc16 R) _ (24 - 8) 2 rfl (by omega)]
  rw [u16le_skip (enc16 C) _ (24 - 8 - 2) 2 rfl (by omega)]
  rw [u16le_skip (enc16 (cnt 0)) _ (24 - 8 - 2 - 2) 2 rfl (by omega)]
  rw [u16le_skip (enc16 (cnt 1)) _ (24 - 8 - 2 - 2 - 2) 2 rfl (by omega)]
  rw [u16le_skip (enc16 (cnt 2)) _ (24 - 8 - 2 - 2 - 2 - 2) 2 rfl (by omega)]
  rw [u16le_skip (enc16 (cnt 3)) _ (24 - 8 - 2 - 2 - 2 - 2 - 2) 2 rfl (by omega)]
  rw [u16le_skip (enc16 (cnt 4)) _ (24 - 8 - 2 - 2 - 2 - 2 - 2 - 2) 2 rfl (by omega)]
  rw [u16le_skip (enc16 (cnt 5)) _ (24 - 8 - 2 - 2 - 2 - 2 - 2 - 2 - 2) 2 rfl (by omega)]
  norm_num
  rw [u16le_enc16]

theorem mkMdh_cnt7 (R C : Nat) (cnt : Nat → Nat) : u16le (mkMdh R C cnt) 26 = cnt 7 := by
  simp only [mkMdh, List.append_assoc]
  rw [u16le_skip (List.replicate 8 0) _ 26 8 rfl (by omega)]
  rw [u16le_skip (enc16 R) _ (26 - 8) 2 rfl (by omega)]
  rw [u16le_skip (enc16 C) _ (26 - 8 - 2) 2 rfl (by omega)]
  rw [u16le_skip (enc16 (cnt 0)) _ (26 - 8 - 2 - 2) 2 rfl (by omega)]
  rw [u16le_skip (enc16 (cnt 1)) _ (26 - 8 - 2 - 2 - 2) 2 rfl (by omega)]
  rw [u16le_skip (enc16 (cnt 2)) _ (26 - 8 - 2 - 2 - 2 - 2) 2 rfl (by omega)]
  rw [u16le_skip (enc16 (cnt 3)) _ (26 - 8 - 2 - 2 - 2 - 2 - 2) 2 rfl (by omega)]
  rw [u16le_skip (enc16 (cnt 4)) _ (26 - 8 - 2 - 2 - 2 - 2 - 2 - 2) 2 rfl (by omega)]
  rw [u16le_skip (enc16 (cnt 5)) _ (26 - 8 - 2 - 2 - 2 - 2 - 2 - 2 - 2) 2 rfl (by omega)]
  rw [u16le_skip (enc16 (cnt 6)) _ (26 - 8 - 2 - 2 - 2 - 2 - 2 - 2 - 2 - 2) 2 rfl (by omega)]
  norm_num
  rw [u16le_enc16]

theorem chanMdhAt_eq (vd : Bool) (f : File) (scan : List Byte) (q : Nat) :
    decodeMdh (if vd then (scan.drop 40).take 60
        else (((f.drop q).take (chanHdrSize vd)).drop 20).take 60) =
      chanMdhAt vd f scan q := by
  cases vd
  · simp only [chanMdhAt, chanHdrSize, Bool.false_eq_true, if_false]
    rw [take_drop_take f q 20 60 128 (by omega)]
  · rfl

/-! Structure of the serialized synthetic records. -/

theorem drop_len_append (A B : List Byte) (n : Nat) (h : A.length = n) :
    (A ++ B).drop n = B := by
  rw [← h]
  exact List.drop_left A B

theorem take_len_append (A B : List Byte) (n : Nat) (h : A.length = n) :
    (A ++ B).take n = A := by
  rw [← h]
  exact List.take_left A B

theorem drop_len_append_add (A B : List Byte) (n k : Nat) (h : A.length = n) :
    (A ++ B).drop (n + k) = B.drop k := by
  rw [← h]
  exact drop_append_len A B k

theorem mkChan_length (vd : Bool) (mdh samp : List Byte) (R : Nat)
    (hm : mdh.length = 60) (hs : samp.length = R * 8) :
    (mkChan vd mdh samp).length = chanStride vd R := by
  cases vd <;> simp [mkChan, chanStride, chanHdrSize, hm, hs] <;> omega

theorem mkScan_length (vd : Bool) (mdh : List Byte) (hm : mdh.length = 60) :
    (mkScan vd mdh).length = scanHdrSize vd := by
  cases vd <;> simp [mkScan, scanHdrSize, hm]

theorem mkChans_length (vd : Bool) (mdh : List Byte) (R : Nat) (hm : mdh.length = 60)
    (samps : List (List Byte)) (hs : ∀ s ∈ samps, s.length = R * 8) :
    ((samps.map (mkChan vd mdh)).flatten).length = samps.length * chanStride vd R := by
  induction samps with
  | nil => simp
  | cons s t ih =>
    simp only [List.map_cons, List.flatten_cons, List.length_append, List.length_cons]
    rw [mkChan_length vd mdh s R hm (hs s (by simp)), ih (fun x hx => hs x (by simp [hx]))]
    ring

theorem mkChans_extract (vd : Bool) (mdh : List Byte) (R : Nat) (hm : mdh.length = 60) :
    ∀ (samps : List (List Byte)) (c : Nat) (tail : List Byte) (a n : Nat),
      c < samps.length → (∀ s ∈ samps, s.length = R * 8) → a + n ≤ chanStride vd R →
      (((samps.map (mkChan vd mdh)).flatten ++ tail).drop (c * chanStride vd R + a)).take n =
        ((mkChan vd mdh (samps.getD c [])).drop a).take n := by
  intro samps
  induction samps with
  | nil =>
    intro c tail a n hc
    simp at hc
  | cons s t ih =>
    intro c tail a n hc hs han
    cases c with
    | zero =>
      simp only [List.map_cons, List.flatten_cons, List.append_assoc, Nat.zero_mul,
        Nat.zero_add, List.getD_cons_zero]
      exact extract_within _ _ a n
        (by rw [mkChan_length vd mdh s R hm (hs s (by simp))]; omega)
    | succ c =>
      simp only [List.map_cons, List.flatten_cons, List.append_assoc, List.getD_cons_succ]
      rw [show (c + 1) * chanStride vd R + a = chanStride vd R + (c * chanStride vd R + a) from by ring]
      rw [drop_len_append_add (mkChan vd mdh s) _ (chanStride vd R) _
        (mkChan_length vd mdh s R hm (hs s (by simp)))]
      exact ih c tail a n (by simpa using hc) (fun x hx => hs x (by simp [hx])) han

theorem mkRecord_length (vd : Bool) (R C : Nat) (rec : SynRec)
    (hc : rec.samps.length = C) (hs : ∀ s ∈ rec.samps, s.length = R * 8) :
    (mkRecord vd R C rec).length = recSize vd R C := by
  simp only [mkRecord, recSize, List.length_append]
  rw [mkScan_length vd _ (mkMdh_length R C rec.cnt),
    mkChans_length vd _ R (mkMdh_length R C rec.cnt) rec.samps hs, hc]

theorem mkRecord_mdh_vd (R C : Nat) (rec : SynRec) (rest : List Byte) :
    ((mkRecord true R C rec ++ rest).drop 40).take 60 = mkMdh R C rec.cnt := by
  simp only [mkRecord, mkScan, if_pos, List.append_assoc]
  rw [show (40 : Nat) = 40 + 0 from rfl]
  rw [drop_len_append_add (List.replicate 40 0) _ 40 0 (by simp)]
  rw [List.drop_zero]
  exact take_len_append _ _ 60 (mkMdh_length R C rec.cnt)

theorem mkRecord_mdh_vb (R C : Nat) (rec : SynRec) (rest : List Byte) (c : Nat)
    (hc : c < rec.samps.length) (hs : ∀ s ∈ rec.samps, s.length = R * 8) :
    ((mkRecord false R C rec ++ rest).drop (c * chanStride false R + 20)).take 60 =
      mkMdh R C rec.cnt := by
  simp only [mkRecord, mkScan, Bool.false_eq_true, if_false, List.nil_append]
  rw [mkChans_extract false _ R (mkMdh_length R C rec.cnt) rec.samps c rest 20 60 hc hs
    (by simp [chanStride, chanHdrSize]; omega)]
  simp only [mkChan, Bool.false_eq_true, if_false, List.append_assoc]
  rw [drop_len_append (List.replicate 20 0) _ 20 (by simp)]
  exact take_len_append _ _ 60 (mkMdh_length R C rec.cnt)

theorem mkRecord_samp (vd : Bool) (R C : Nat) (rec : SynRec) (rest : List Byte)
    (c r : Nat) (hc : c < rec.samps.length) (hr : r < R)
    (hs : ∀ s ∈ rec.samps, s.length = R * 8) :
    ((mkRecord vd R C rec ++ rest).drop
        (scanHdrSize vd + (c * chanStride vd R + (chanHdrSize vd + 8 * r)))).take 8 =
      ((rec.samps.getD c []).drop (8 * r)).take 8 := by
  cases vd
  · simp only [mkRecord, mkScan, Bool.false_eq_true, if_false, List.nil_append,
      scanHdrSize, Nat.zero_add]
    rw [mkChans_extract false _ R (mkMdh_length R C rec.cnt) rec.samps c rest
      (chanHdrSize false + 8 * r) 8 hc hs (by simp [chanStride, chanHdrSize]; omega)]
    have hrw : mkChan false (mkMdh R C rec.cnt) (rec.samps.getD c []) =
        (List.replicate 20 0 ++ mkMdh R C rec.cnt ++ List.replicate 48 0) ++
          rec.samps.getD c [] := by
      simp [mkChan, List.append_assoc]
    rw [hrw]
    simp only [chanHdrSize, Bool.false_eq_true, if_false]
    rw [drop_len_append_add _ _ 128 (8 * r)
      (by simp [mkMdh_length R C rec.cnt])]
  · simp only [mkRecord, List.append_assoc]
    rw [drop_len_append_add (mkScan true (mkMdh R C rec.cnt)) _ (scanHdrSize true) _
      (mkScan_length true _ (mkMdh_length R C rec.cnt))]
    rw [mkChans_extract true _ R (mkMdh_length R C rec.cnt) rec.samps c rest
      (chanHdrSize true + 8 * r) 8 hc hs (by simp [chanStride, chanHdrSize]; omega)]
    simp only [mkChan, if_pos, chanHdrSize]
    rw [drop_len_append_add (List.replicate 32 0) _ 32 (8 * r) (by simp)]

/-! Coordinate helpers. -/

theorem md_is_index_iff (pos dims : Coord) :
    md_is_index pos dims = true ↔ ∀ i, pos i < dims i := by
  simp [md_is_index]

theorem setCoord_other (pos : Coord) (m : Mdh) (i : Fin 16)
    (h1 : i ≠ PHS1_DIM) (h2 : i ≠ SLICE_DIM) (h3 : i ≠ PHS2_DIM)
    (h4 : i ≠ TE_DIM) (h5 : i ≠ TIME_DIM) (h6 : i ≠ TIME2_DIM) :
    setCoord pos m i = pos i := by
  unfold setCoord
  rw [Function.update_noteq h6, Function.update_noteq h5, Function.update_noteq h4,
    Function.update_noteq h3, Function.update_noteq h2, Function.update_noteq h1]

theorem setCoord_phs1 (pos : Coord) (m : Mdh) : setCoord pos m PHS1_DIM = m.sLC 0 := by
  unfold setCoord
  rw [Function.update_noteq (by decide), Function.update_noteq (by decide),
    Function.update_noteq (by decide), Function.update_noteq (by decide),
    Function.update_noteq (by decide), Function.update_same]

theorem setCoord_slice (pos : Coord) (m : Mdh) : setCoord pos m SLICE_DIM = m.sLC 2 := by
  unfold setCoord
  rw [Function.update_noteq (by decide), Function.update_noteq (by decide),
    Function.update_noteq (by decide), Function.update_noteq (by decide),
    Function.update_same]

theorem setCoord_phs2 (pos : Coord) (m : Mdh) : setCoord pos m PHS2_DIM = m.sLC 3 := by
  unfold setCoord
  rw [Function.update_noteq (by decide), Function.update_noteq (by decide),
    Function.update_noteq (by decide), Function.update_same]

theorem setCoord_te (pos : Coord) (m : Mdh) : setCoord pos m TE_DIM = m.sLC 4 := by
  unfold setCoord
  rw [Function.update_noteq (by decide), Function.update_noteq (by decide),
    Function.update_same]

theorem setCoord_time (pos : Coord) (m : Mdh) : setCoord pos m TIME_DIM = m.sLC 6 := by
  unfold setCoord
  rw [Function.update_noteq (by decide), Function.update_same]

theorem setCoord_time2 (pos : Coord) (m : Mdh) : setCoord pos m TIME2_DIM = m.sLC 7 := by
  unfold setCoord
  rw [Function.update_same]

/-! The channel loop on a well-formed region: success characterization for
channels after the first (`1 ≤ c`, so the coordinate is no longer derived). -/

theorem adcChanLoop_ok_tail (vd : Bool) (f : File) (dims : Coord) (scan : List Byte) :
    ∀ (rem c q : Nat) (pos : Coord) (buf : Buf),
      1 ≤ c →
      q + rem * chanStride vd (dims READ_DIM) ≤ f.length →
      (∀ j, j < rem →
        (chanMdhAt vd f scan (q + j * chanStride vd (dims READ_DIM))).samples = dims READ_DIM) →
      (∀ j, j < rem →
        md_is_index (Function.update pos COIL_DIM (c + j)) dims = true) →
      ∃ buf2,
        adcChanLoop vd f dims scan rem c q pos buf =
          .ok (q + rem * chanStride vd (dims READ_DIM),
            if rem = 0 then pos else Function.update pos COIL_DIM (c + rem - 1), buf2) ∧
        (∀ j r, j < rem → r < dims READ_DIM →
          buf2 ((c + j) * dims READ_DIM + r) =
            (f.drop (q + j * chanStride vd (dims READ_DIM) + chanHdrSize vd + 8 * r)).take 8) ∧
        (∀ i, i < c * dims READ_DIM ∨ (c + rem) * dims READ_DIM ≤ i → buf2 i = buf i) := by
  intro rem
  induction rem with
  | zero =>
    intro c q pos buf hc hlen hsamp hidx
    refine ⟨buf, by simp [adcChanLoop], ?_, ?_⟩
    · intro j r hj
      omega
    · intro i _
      rfl
  | succ rem ih =>
    intro c q pos buf hc hlen hsamp hidx
    have e2 : chanStride vd (dims READ_DIM) = chanHdrSize vd + dims READ_DIM * 8 := rfl
    have e1 : (rem + 1) * chanStride vd (dims READ_DIM) =
        rem * chanStride vd (dims READ_DIM) + chanStride vd (dims READ_DIM) := by ring
    have hsamp0 : (chanMdhAt vd f scan q).samples = dims READ_DIM := by
      simpa using hsamp 0 (by omega)
    have hidx0 : md_is_index (Function.update pos COIL_DIM c) dims = true := by
      simpa using hidx 0 (by omega)
    have hr1 : xread f q (chanHdrSize vd) =
        .ok ((f.drop q).take (chanHdrSize vd), q + chanHdrSize vd) :=
      xread_eq_ok f q _ (by omega)
    have hr2 : xread f (q + chanHdrSize vd) (dims READ_DIM * 8) =
        .ok ((f.drop (q + chanHdrSize vd)).take (dims READ_DIM * 8),
          q + chanHdrSize vd + dims READ_DIM * 8) :=
      xread_eq_ok f _ _ (by omega)
    have hloop : adcChanLoop vd f dims scan (rem + 1) c q pos buf =
        adcChanLoop vd f dims scan rem (c + 1) (q + chanHdrSize vd + dims READ_DIM * 8)
          (Function.update pos COIL_DIM c)
          (writeSamples buf (c * dims READ_DIM) (dims READ_DIM)
            ((f.drop (q + chanHdrSize vd)).take (dims READ_DIM * 8))) := by
      rw [adcChanLoop, hr1]
      simp only [chanMdhAt_eq]
      rw [if_neg (show ¬(c = 0) from by omega)]
      rw [if_neg (show ¬(dims READ_DIM ≠ (chanMdhAt vd f scan q).samples) from by
        simp [hsamp0])]
      rw [if_neg (show ¬(md_is_index (Function.update pos COIL_DIM c) dims = false) from by
        simp [hidx0])]
      rw [hr2]
    obtain ⟨buf2, heq, hchunk, hkeep⟩ := ih (c + 1) (q + chanHdrSize vd + dims READ_DIM * 8)
      (Function.update pos COIL_DIM c)
      (writeSamples buf (c * dims READ_DIM) (dims READ_DIM)
        ((f.drop (q + chanHdrSize vd)).take (dims READ_DIM * 8)))
      (by omega) (by omega)
      (by
        intro j hj
        have := hsamp (j + 1) (by omega)
        rwa [show q + (j + 1) * chanStride vd (dims READ_DIM) =
          q + chanHdrSize vd + dims READ_DIM * 8 + j * chanStride vd (dims READ_DIM) from by
            have e5 : (j + 1) * chanStride vd (dims READ_DIM) =
              j * chanStride vd (dims READ_DIM) + chanStride vd (dims READ_DIM) := by ring
            omega] at this)
      (by
        intro j hj
        rw [Function.update_idem]
        have := hidx (j + 1) (by omega)
        rwa [show c + (j + 1) = c + 1 + j from by omega] at this)
    refine ⟨buf2, ?_, ?_, ?_⟩
    · rw [hloop, heq]
      rw [show q + chanHdrSize vd + dims READ_DIM * 8 + rem * chanStride vd (dims READ_DIM) =
        q + (rem + 1) * chanStride vd (dims READ_DIM) from by omega]
      cases rem with
      | zero =>
        simp
      | succ n =>
        rw [if_neg (show ¬(n + 1 = 0) from by omega),
          if_neg (show ¬(n + 1 + 1 = 0) from by omega), Function.update_idem]
        rw [show c + 1 + (n + 1) - 1 = c + (n + 1 + 1) - 1 from by omega]
    · intro j r hj hr
      cases j with
      | zero =>
        simp only [Nat.add_zero, Nat.zero_mul]
        have e3 : (c + 1) * dims READ_DIM = c * dims READ_DIM + dims READ_DIM := by ring
        have h1 : buf2 (c * dims READ_DIM + r) =
            writeSamples buf (c * dims READ_DIM) (dims READ_DIM)
              ((f.drop (q + chanHdrSize vd)).take (dims READ_DIM * 8))
              (c * dims READ_DIM + r) := by
          apply hkeep
          left
          omega
        rw [h1]
        unfold writeSamples
        rw [if_pos ⟨by omega, by omega⟩]
        rw [show c * dims READ_DIM + r - c * dims READ_DIM = r from by omega]
        rw [take_drop_take f (q + chanHdrSize vd) (8 * r) 8 (dims READ_DIM * 8) (by omega)]
      | succ j =>
        have := hchunk j r (by omega) hr
        rw [show c + 1 + j = c + (j + 1) from by omega] at this
        rwa [show q + chanHdrSize vd + dims READ_DIM * 8 + j * chanStride vd (dims READ_DIM) +
          chanHdrSize vd + 8 * r =
          q + (j + 1) * chanStride vd (dims READ_DIM) + chanHdrSize vd + 8 * r from by
            have e5 : (j + 1) * chanStride vd (dims READ_DIM) =
              j * chanStride vd (dims READ_DIM) + chanStride vd (dims READ_DIM) := by ring
            omega] at this
    · intro i hi
      have e3 : (c + 1) * dims READ_DIM = c * dims READ_DIM + dims READ_DIM := by ring
      have e4 : (c + 1 + rem) * dims READ_DIM = (c + (rem + 1)) * dims READ_DIM := by
        rw [show c + 1 + rem = c + (rem + 1) from by omega]
      have h1 : buf2 i = writeSamples buf (c * dims READ_DIM) (dims READ_DIM)
          ((f.drop (q + chanHdrSize vd)).take (dims READ_DIM * 8)) i := by
        apply hkeep
        rcases hi with hi | hi
        · left
          omega
        · right
          omega
      rw [h1]
      unfold writeSamples
      rw [if_neg (by
        rcases hi with hi | hi
        · omega
        · have h5 : (c + 1) * dims READ_DIM ≤ (c + (rem + 1)) * dims READ_DIM :=
            Nat.mul_le_mul_right _ (by omega)
          omega)]

theorem derivedAt_coil (vd : Bool) (f : File) (p : Nat) (dims pos0 : Coord) :
    derivedAt vd f p dims pos0 COIL_DIM = 0 := by
  unfold derivedAt
  rw [setCoord_other _ _ _ (by decide) (by decide) (by decide) (by decide) (by decide)
    (by decide)]
  exact Function.update_same COIL_DIM 0 pos0

theorem update_coil_derived (vd : Bool) (f : File) (p : Nat) (dims pos0 : Coord) :
    Function.update (derivedAt vd f p dims pos0) COIL_DIM 0 = derivedAt vd f p dims pos0 := by
  conv_lhs => rw [show (0 : Nat) = derivedAt vd f p dims pos0 COIL_DIM from
    (derivedAt_coil vd f p dims pos0).symm]
  exact Function.update_eq_self COIL_DIM (derivedAt vd f p dims pos0)

theorem chanMdhAt_recMdh (vd : Bool) (f : File) (R p c : Nat) :
    chanMdhAt vd f ((f.drop p).take (scanHdrSize vd)) (chanPos vd R p c) = recMdh vd f R p c := by
  cases vd
  · rfl
  · unfold chanMdhAt recMdh recMdhBytes scanHdrSize
    simp only [if_pos]
    rw [take_drop_take f p 40 60 192 (by omega)]

theorem siemens_adc_read_ok (vd : Bool) (f : File) (p : Nat) (dims pos0 : Coord) (buf : Buf)
    (hC : 0 < dims COIL_DIM)
    (hlen : p + scanHdrSize vd + dims COIL_DIM * chanStride vd (dims READ_DIM) ≤ f.length)
    (hsamp : ∀ c, c < dims COIL_DIM →
      (recMdh vd f (dims READ_DIM) p c).samples = dims READ_DIM)
    (hidx : ∀ c, c < dims COIL_DIM →
      md_is_index (Function.update (derivedAt vd f p dims pos0) COIL_DIM c) dims = true) :
    ∃ buf2,
      siemens_adc_read vd f p dims pos0 buf =
        .ok (p + scanHdrSize vd + dims COIL_DIM * chanStride vd (dims READ_DIM),
          derivedAt vd f p dims pos0, buf2) ∧
      (∀ c r, c < dims COIL_DIM → r < dims READ_DIM →
        buf2 (c * dims READ_DIM + r) =
          (f.drop (chanPos vd (dims READ_DIM) p c + chanHdrSize vd + 8 * r)).take 8) ∧
      (∀ i, dims COIL_DIM * dims READ_DIM ≤ i → buf2 i = buf i) := by
  obtain ⟨Cm, hCm⟩ : ∃ Cm, dims COIL_DIM = Cm + 1 := ⟨dims COIL_DIM - 1, by omega⟩
  have e2 : chanStride vd (dims READ_DIM) = chanHdrSize vd + dims READ_DIM * 8 := rfl
  have e1 : (Cm + 1) * chanStride vd (dims READ_DIM) =
      Cm * chanStride vd (dims READ_DIM) + chanStride vd (dims READ_DIM) := by ring
  have hs : xread f p (scanHdrSize vd) =
      .ok ((f.drop p).take (scanHdrSize vd), p + scanHdrSize vd) :=
    xread_eq_ok f p _ (by rw [hCm] at hlen; omega)
  have hmdh0 : chanMdhAt vd f ((f.drop p).take (scanHdrSize vd)) (p + scanHdrSize vd) =
      recMdh vd f (dims READ_DIM) p 0 := by
    have := chanMdhAt_recMdh vd f (dims READ_DIM) p 0
    rwa [show chanPos vd (dims READ_DIM) p 0 = p + scanHdrSize vd from by
      simp [chanPos]] at this
  have hder : setCoord (Function.update pos0 COIL_DIM 0)
      (chanMdhAt vd f ((f.drop p).take (scanHdrSize vd)) (p + scanHdrSize vd)) =
      derivedAt vd f p dims pos0 := by
    rw [hmdh0]; rfl
  have hidxD : md_is_index (derivedAt vd f p dims pos0) dims = true := by
    have := hidx 0 (by omega)
    rwa [update_coil_derived vd f p dims pos0] at this
  have hsamp0 : (recMdh vd f (dims READ_DIM) p 0).samples = dims READ_DIM :=
    hsamp 0 (by omega)
  have hr1 : xread f (p + scanHdrSize vd) (chanHdrSize vd) =
      .ok ((f.drop (p + scanHdrSize vd)).take (chanHdrSize vd),
        p + scanHdrSize vd + chanHdrSize vd) :=
    xread_eq_ok f _ _ (by rw [hCm] at hlen; omega)
  have hr2 : xread f (p + scanHdrSize vd + chanHdrSize vd) (dims READ_DIM * 8) =
      .ok ((f.drop (p + scanHdrSize vd + chanHdrSize vd)).take (dims READ_DIM * 8),
        p + scanHdrSize vd + chanHdrSize vd + dims READ_DIM * 8) :=
    xread_eq_ok f _ _ (by rw [hCm] at hlen; omega)
  have hstep : adcChanLoop vd f dims ((f.drop p).take (scanHdrSize vd)) (Cm + 1) 0
      (p + scanHdrSize vd) pos0 buf =
      adcChanLoop vd f dims ((f.drop p).take (scanHdrSize vd)) Cm 1
        (p + scanHdrSize vd + chanHdrSize vd + dims READ_DIM * 8)
        (derivedAt vd f p dims pos0)
        (writeSamples buf (0 * dims READ_DIM) (dims READ_DIM)
          ((f.drop (p + scanHdrSize vd + chanHdrSize vd)).take (dims READ_DIM * 8))) := by
    rw [adcChanLoop, hr1]
    simp only [chanMdhAt_eq, if_true]
    rw [hder]
    rw [if_neg (show ¬(dims READ_DIM ≠ (chanMdhAt vd f ((f.drop p).take (scanHdrSize vd))
      (p + scanHdrSize vd)).samples) from by rw [hmdh0]; simp [hsamp0])]
    rw [if_neg (show ¬(md_is_index (derivedAt vd f p dims pos0) dims = false) from by
      simp [hidxD])]
    rw [hr2]
  obtain ⟨buf2, heq, hchunk, hkeep⟩ := adcChanLoop_ok_tail vd f dims
    ((f.drop p).take (scanHdrSize vd)) Cm 1
    (p + scanHdrSize vd + chanHdrSize vd + dims READ_DIM * 8)
    (derivedAt vd f p dims pos0)
    (writeSamples buf (0 * dims READ_DIM) (dims READ_DIM)
      ((f.drop (p + scanHdrSize vd + chanHdrSize vd)).take (dims READ_DIM * 8)))
    (by omega) (by rw [hCm] at hlen; omega)
    (by
      intro j hj
      have := hsamp (j + 1) (by omega)
      rw [← chanMdhAt_recMdh vd f (dims READ_DIM) p (j + 1)] at this
      rwa [show chanPos vd (dims READ_DIM) p (j + 1) =
        p + scanHdrSize vd + chanHdrSize vd + dims READ_DIM * 8 +
          j * chanStride vd (dims READ_DIM) from by
        have e5 : (j + 1) * chanStride vd (dims READ_DIM) =
          j * chanStride vd (dims READ_DIM) + chanStride vd (dims READ_DIM) := by ring
        simp [chanPos]
        omega] at this)
    (by
      intro j hj
      have := hidx (j + 1) (by omega)
      rwa [show j + 1 = 1 + j from by omega] at this)
  have hread : siemens_adc_read vd f p dims pos0 buf =
      match adcChanLoop vd f dims ((f.drop p).take (scanHdrSize vd)) (dims COIL_DIM) 0
          (p + scanHdrSize vd) pos0 buf with
      | .error e => .error e
      | .ok r => .ok (r.1, Function.update r.2.1 COIL_DIM 0, r.2.2) := by
    simp only [siemens_adc_read, hs]
  refine ⟨buf2, ?_, ?_, ?_⟩
  · have hposeq : p + scanHdrSize vd + chanHdrSize vd + dims READ_DIM * 8 +
        Cm * chanStride vd (dims READ_DIM) =
        p + scanHdrSize vd + (Cm + 1) * chanStride vd (dims READ_DIM) := by omega
    rw [hread, hCm, hstep, heq, hposeq]
    cases Cm with
    | zero =>
      simp only [if_pos]
      simp [update_coil_derived vd f p dims pos0]
    | succ n =>
      rw [if_neg (show ¬(n + 1 = 0) from by omega)]
      simp [Function.update_idem, update_coil_derived vd f p dims pos0]
  · intro c r hc hr
    cases c with
    | zero =>
      have h1 : buf2 (0 * dims READ_DIM + r) =
          writeSamples buf (0 * dims READ_DIM) (dims READ_DIM)
            ((f.drop (p + scanHdrSize vd + chanHdrSize vd)).take (dims READ_DIM * 8))
            (0 * dims READ_DIM + r) := by
        apply hkeep
        left
        simp only [Nat.zero_mul, Nat.one_mul]
        omega
      rw [h1]
      unfold writeSamples
      rw [if_pos ⟨by omega, by simp only [Nat.zero_mul]; omega⟩]
      rw [show 8 * (0 * dims READ_DIM + r - 0 * dims READ_DIM) = 8 * r from by
        simp only [Nat.zero_mul]; omega]
      rw [take_drop_take f (p + scanHdrSize vd + chanHdrSize vd) (8 * r) 8
        (dims READ_DIM * 8) (by omega)]
      rw [show chanPos vd (dims READ_DIM) p 0 + chanHdrSize vd + 8 * r =
        p + scanHdrSize vd + chanHdrSize vd + 8 * r from by simp [chanPos]]
    | succ c =>
      have := hchunk c r (by omega) hr
      rw [show 1 + c = c + 1 from by omega] at this
      rwa [show p + scanHdrSize vd + chanHdrSize vd + dims READ_DIM * 8 +
        c * chanStride vd (dims READ_DIM) + chanHdrSize vd + 8 * r =
        chanPos vd (dims READ_DIM) p (c + 1) + chanHdrSize vd + 8 * r from by
        have e5 : (c + 1) * chanStride vd (dims READ_DIM) =
          c * chanStride vd (dims READ_DIM) + chanStride vd (dims READ_DIM) := by ring
        simp [chanPos]
        omega] at this
  · intro i hi
    rw [hCm] at hi
    have e3 : (Cm + 1) * dims READ_DIM = Cm * dims READ_DIM + dims READ_DIM := by ring
    have e4 : (1 + Cm) * dims READ_DIM = (Cm + 1) * dims READ_DIM := by ring
    have h1 : buf2 i = writeSamples buf (0 * dims READ_DIM) (dims READ_DIM)
        ((f.drop (p + scanHdrSize vd + chanHdrSize vd)).take (dims READ_DIM * 8)) i := by
      apply hkeep
      right
      omega
    rw [h1]
    unfold writeSamples
    rw [if_neg (by
      simp only [Nat.zero_mul]
      omega)]

/-! Reading a serialized synthetic record. -/

theorem recMdh_mkRecord (vd : Bool) (R C : Nat) (pre rest : List Byte) (rec : SynRec)
    (c : Nat) (hc : c < C) (hcnt : rec.samps.length = C)
    (hs : ∀ s ∈ rec.samps, s.length = R * 8) :
    recMdh vd (pre ++ (mkRecord vd R C rec ++ rest)) R pre.length c =
      decodeMdh (mkMdh R C rec.cnt) := by
  unfold recMdh recMdhBytes
  cases vd
  · simp only [Bool.false_eq_true, if_false]
    congr 1
    rw [show chanPos false R pre.length c + 20 = pre.length + (c * chanStride false R + 20)
      from by simp [chanPos, scanHdrSize]; omega]
    rw [drop_append_len pre _ _]
    exact mkRecord_mdh_vb R C rec rest c (by omega) hs
  · simp only [if_pos]
    congr 1
    rw [show pre.length + 40 = pre.length + 40 from rfl, drop_append_len pre _ 40]
    exact mkRecord_mdh_vd R C rec rest

theorem setCoord_mkMdh_spec (R C : Nat) (cnt : Nat → Nat) :
    setCoord (Function.update zeroCoord COIL_DIM 0) (decodeMdh (mkMdh R C cnt)) =
      specCoord cnt := by
  have hz : Function.update zeroCoord COIL_DIM (0 : Nat) = zeroCoord :=
    Function.update_eq_self COIL_DIM zeroCoord
  funext i
  by_cases h1 : i = PHS1_DIM
  · subst h1
    rw [setCoord_phs1]
    show u16le (mkMdh R C cnt) (12 + 2 * 0) = specCoord cnt PHS1_DIM
    norm_num [specCoord]
    exact mkMdh_cnt0 R C cnt
  · by_cases h2 : i = SLICE_DIM
    · subst h2
      rw [setCoord_slice]
      show u16le (mkMdh R C cnt) (12 + 2 * 2) = specCoord cnt SLICE_DIM
      norm_num [specCoord]
      exact mkMdh_cnt2 R C cnt
    · by_cases h3 : i = PHS2_DIM
      · subst h3
        rw [setCoord_phs2]
        show u16le (mkMdh R C cnt) (12 + 2 * 3) = specCoord cnt PHS2_DIM
        norm_num [specCoord]
        exact mkMdh_cnt3 R C cnt
      · by_cases h4 : i = TE_DIM
        · subst h4
          rw [setCoord_te]
          show u16le (mkMdh R C cnt) (12 + 2 * 4) = specCoord cnt TE_DIM
          norm_num [specCoord]
          exact mkMdh_cnt4 R C cnt
        · by_cases h5 : i = TIME_DIM
          · subst h5
            rw [setCoord_time]
            show u16le (mkMdh R C cnt) (12 + 2 * 6) = specCoord cnt TIME_DIM
            norm_num [specCoord]
            exact mkMdh_cnt6 R C cnt
          · by_cases h6 : i = TIME2_DIM
            · subst h6
              rw [setCoord_time2]
              show u16le (mkMdh R C cnt) (12 + 2 * 7) = specCoord cnt TIME2_DIM
              norm_num [specCoord]
              exact mkMdh_cnt7 R C cnt
            · rw [setCoord_other _ _ _ h1 h2 h3 h4 h5 h6, hz]
              simp [specCoord, h1, h2, h3, h4, h5, h6, zeroCoord]

theorem adc_read_mkRecord (vd : Bool) (dims : Coord) (pre rest : List Byte) (rec : SynRec)
    (buf : Buf)
    (hC : 0 < dims COIL_DIM)
    (hcnt : rec.samps.length = dims COIL_DIM)
    (hs : ∀ s ∈ rec.samps, s.length = dims READ_DIM * 8)
    (hbnd : ∀ i, i ≠ COIL_DIM → specCoord rec.cnt i < dims i) :
    ∃ buf2,
      siemens_adc_read vd (pre ++ (mkRecord vd (dims READ_DIM) (dims COIL_DIM) rec ++ rest))
          pre.length dims zeroCoord buf =
        .ok (pre.length + recSize vd (dims READ_DIM) (dims COIL_DIM), specCoord rec.cnt,
          buf2) ∧
      (∀ c r, c < dims COIL_DIM → r < dims READ_DIM →
        buf2 (c * dims READ_DIM + r) = ((rec.samps.getD c []).drop (8 * r)).take 8) ∧
      (∀ i, dims COIL_DIM * dims READ_DIM ≤ i → buf2 i = buf i) := by
  have hlenR : (mkRecord vd (dims READ_DIM) (dims COIL_DIM) rec).length =
      recSize vd (dims READ_DIM) (dims COIL_DIM) :=
    mkRecord_length vd _ _ rec hcnt hs
  have hrs : recSize vd (dims READ_DIM) (dims COIL_DIM) =
      scanHdrSize vd + dims COIL_DIM * chanStride vd (dims READ_DIM) := rfl
  have hmdh : ∀ c, c < dims COIL_DIM →
      recMdh vd (pre ++ (mkRecord vd (dims READ_DIM) (dims COIL_DIM) rec ++ rest))
        (dims READ_DIM) pre.length c = decodeMdh (mkMdh (dims READ_DIM) (dims COIL_DIM) rec.cnt) :=
    fun c hc => recMdh_mkRecord vd _ _ pre rest rec c hc hcnt hs
  have hder : derivedAt vd (pre ++ (mkRecord vd (dims READ_DIM) (dims COIL_DIM) rec ++ rest))
      pre.length dims zeroCoord = specCoord rec.cnt := by
    unfold derivedAt
    rw [hmdh 0 hC, setCoord_mkMdh_spec]
  obtain ⟨buf2, heq, hchunk, hkeep⟩ := siemens_adc_read_ok vd
    (pre ++ (mkRecord vd (dims READ_DIM) (dims COIL_DIM) rec ++ rest)) pre.length dims
    zeroCoord buf hC
    (by
      simp only [List.length_append, hlenR, hrs]
      omega)
    (by
      intro c hc
      rw [hmdh c hc]
      show u16le (mkMdh (dims READ_DIM) (dims COIL_DIM) rec.cnt) 8 = dims READ_DIM
      exact mkMdh_samples _ _ _)
    (by
      intro c hc
      rw [hder, md_is_index_iff]
      intro i
      by_cases hi : i = COIL_DIM
      · subst hi
        rw [Function.update_same]
        exact hc
      · rw [Function.update_noteq hi]
        exact hbnd i hi)
  refine ⟨buf2, ?_, ?_, ?_⟩
  · rw [heq, hder, hrs]
    rw [Nat.add_assoc]
  · intro c r hc hr
    rw [hchunk c r hc hr]
    rw [show chanPos vd (dims READ_DIM) pre.length c + chanHdrSize vd + 8 * r =
      pre.length + (scanHdrSize vd + (c * chanStride vd (dims READ_DIM) +
        (chanHdrSize vd + 8 * r))) from by simp [chanPos]; omega]
    rw [drop_append_len pre _ _]
    exact mkRecord_samp vd _ _ rec rest c r (by omega) hr hs
  · exact hkeep

/-! The driver loop over a serialized sequence of synthetic records. -/

theorem md_copy_block_congr (dims pos : Coord) (out : Out) (b1 b2 : Buf)
    (h : ∀ i, i < dims COIL_DIM * dims READ_DIM → b1 i = b2 i) :
    md_copy_block dims pos out b1 = md_copy_block dims pos out b2 := by
  funext idx
  unfold md_copy_block
  by_cases hcov : coversP dims pos idx
  · rw [if_pos hcov, if_pos hcov]
    apply h
    have h1 : idx COIL_DIM + 1 ≤ dims COIL_DIM := hcov.2.2
    have h2 := Nat.mul_le_mul_right (dims READ_DIM) h1
    have h3 : (idx COIL_DIM + 1) * dims READ_DIM =
        idx COIL_DIM * dims READ_DIM + dims READ_DIM := by ring
    have h4 : idx READ_DIM < dims READ_DIM := hcov.2.1
    omega
  · rw [if_neg hcov, if_neg hcov]

theorem driverLoop_syn (vd : Bool) (dims : Coord) (hC : 0 < dims COIL_DIM) :
    ∀ (recs : List SynRec) (pre post : List Byte) (buf0 : Buf) (out0 : Out),
      (∀ rec ∈ recs, rec.samps.length = dims COIL_DIM ∧
        (∀ s ∈ rec.samps, s.length = dims READ_DIM * 8) ∧
        (∀ i, i ≠ COIL_DIM → specCoord rec.cnt i < dims i)) →
      driverLoop vd (pre ++ (synBytes vd (dims READ_DIM) (dims COIL_DIM) recs ++ post)) dims
          recs.length pre.length buf0 out0 =
        ⟨placedOut dims recs out0, none,
          pre.length + recs.length * recSize vd (dims READ_DIM) (dims COIL_DIM)⟩ := by
  intro recs
  induction recs with
  | nil =>
    intro pre post buf0 out0 h
    simp [driverLoop, placedOut]
  | cons rec rest ih =>
    intro pre post buf0 out0 h
    have hwf := h rec (by simp)
    have hR : 0 < dims READ_DIM := by
      have := hwf.2.2 READ_DIM (by decide)
      have hz : specCoord rec.cnt READ_DIM = 0 := by
        simp only [specCoord]
        rw [if_neg (by decide), if_neg (by decide), if_neg (by decide), if_neg (by decide),
          if_neg (by decide), if_neg (by decide)]
      omega
    have hf : pre ++ (synBytes vd (dims READ_DIM) (dims COIL_DIM) (rec :: rest) ++ post) =
        pre ++ (mkRecord vd (dims READ_DIM) (dims COIL_DIM) rec ++
          (synBytes vd (dims READ_DIM) (dims COIL_DIM) rest ++ post)) := by
      simp [synBytes, List.append_assoc]
    rw [hf]
    obtain ⟨buf2, heq, hchunk, hkeep⟩ := adc_read_mkRecord vd dims pre
      (synBytes vd (dims READ_DIM) (dims COIL_DIM) rest ++ post) rec buf0 hC
      hwf.1 hwf.2.1 hwf.2.2
    rw [show (rec :: rest).length = rest.length + 1 from by simp]
    simp only [driverLoop, heq]
    have hcong : md_copy_block dims (specCoord rec.cnt) out0 buf2 =
        md_copy_block dims (specCoord rec.cnt) out0 (idealBuf (dims READ_DIM) rec) := by
      apply md_copy_block_congr
      intro i hi
      have hdivlt : i / dims READ_DIM < dims COIL_DIM := by
        rw [Nat.div_lt_iff_lt_mul hR]
        omega
      have hmod : i % dims READ_DIM < dims READ_DIM := Nat.mod_lt i hR
      have hcr : i / dims READ_DIM * dims READ_DIM + i % dims READ_DIM = i := by
        rw [Nat.mul_comm (i / dims READ_DIM) (dims READ_DIM)]
        exact Nat.div_add_mod i (dims READ_DIM)
      rw [show i = i / dims READ_DIM * dims READ_DIM + i % dims READ_DIM from hcr.symm]
      rw [hchunk _ _ hdivlt hmod]
      unfold idealBuf
      rw [hcr]
    rw [hcong]
    have hs2 : ∀ r ∈ rest, r.samps.length = dims COIL_DIM ∧
        (∀ s ∈ r.samps, s.length = dims READ_DIM * 8) ∧
        (∀ i, i ≠ COIL_DIM → specCoord r.cnt i < dims i) :=
      fun r hr => h r (by simp [hr])
    have hstep := ih (pre ++ mkRecord vd (dims READ_DIM) (dims COIL_DIM) rec) post buf2
      (md_copy_block dims (specCoord rec.cnt) out0 (idealBuf (dims READ_DIM) rec)) hs2
    rw [List.append_assoc, List.length_append,
      mkRecord_length vd _ _ rec hwf.1 hwf.2.1] at hstep
    rw [hstep]
    have hpl : placedOut dims (rec :: rest) out0 =
        placedOut dims rest (md_copy_block dims (specCoord rec.cnt) out0
          (idealBuf (dims READ_DIM) rec)) := rfl
    rw [hpl]
    congr 1
    ring

/-! Analysis of the placed output. -/

theorem updCoord_read (pos : Coord) (r c : Nat) : updCoord pos r c READ_DIM = r := by
  unfold updCoord
  rw [Function.update_noteq (by decide), Function.update_same]

theorem updCoord_coil (pos : Coord) (r c : Nat) : updCoord pos r c COIL_DIM = c := by
  unfold updCoord
  rw [Function.update_same]

theorem updCoord_other (pos : Coord) (r c : Nat) (i : Fin 16)
    (h1 : i ≠ READ_DIM) (h2 : i ≠ COIL_DIM) : updCoord pos r c i = pos i := by
  unfold updCoord
  rw [Function.update_noteq h2, Function.update_noteq h1]

theorem placedOut_not_covered (dims : Coord) :
    ∀ (recs : List SynRec) (out0 : Out) (idx : Coord),
      (∀ rec ∈ recs, ¬ coversP dims (specCoord rec.cnt) idx) →
      placedOut dims recs out0 idx = out0 idx := by
  intro recs
  induction recs with
  | nil =>
    intro out0 idx h
    rfl
  | cons rec rest ih =>
    intro out0 idx h
    have h1 : placedOut dims (rec :: rest) out0 =
        placedOut dims rest (md_copy_block dims (specCoord rec.cnt) out0
          (idealBuf (dims READ_DIM) rec)) := rfl
    rw [h1, ih _ idx (fun x hx => h x (by simp [hx]))]
    unfold md_copy_block
    rw [if_neg (h rec (by simp))]

theorem placedOut_covered (dims : Coord) :
    ∀ (recs : List SynRec) (out0 : Out) (k : Nat) (hk : k < recs.length) (idx : Coord),
      coversP dims (specCoord recs[k].cnt) idx →
      (∀ j, (hj : j < recs.length) → j ≠ k →
        ¬ coversP dims (specCoord recs[j].cnt) idx) →
      placedOut dims recs out0 idx =
        idealBuf (dims READ_DIM) recs[k]
          (idx COIL_DIM * dims READ_DIM + idx READ_DIM) := by
  intro recs
  induction recs with
  | nil =>
    intro out0 k hk
    simp at hk
  | cons rec rest ih =>
    intro out0 k hk idx hcov hothers
    have h1 : placedOut dims (rec :: rest) out0 =
        placedOut dims rest (md_copy_block dims (specCoord rec.cnt) out0
          (idealBuf (dims READ_DIM) rec)) := rfl
    rw [h1]
    cases k with
    | zero =>
      rw [placedOut_not_covered dims rest _ idx (by
        intro x hx
        obtain ⟨j, hj, hxj⟩ := List.mem_iff_getElem.mp hx
        have hcj := hothers (j + 1) (by simpa using Nat.succ_lt_succ hj) (Nat.succ_ne_zero j)
        rw [List.getElem_cons_succ, hxj] at hcj
        exact hcj)]
      unfold md_copy_block
      rw [if_pos (by simpa using hcov)]
      simp
    | succ k =>
      have hres := ih (md_copy_block dims (specCoord rec.cnt) out0
          (idealBuf (dims READ_DIM) rec)) k (by simpa using Nat.lt_of_succ_lt_succ hk) idx
        (by simpa using hcov)
        (by
          intro j hj hjk
          have hcj := hothers (j + 1) (by simpa using Nat.succ_lt_succ hj) (by omega)
          rw [List.getElem_cons_succ] at hcj
          exact hcj)
      rw [hres]
      simp

/-- C1: end-to-end round trip.  For every well-formed synthetic input
(records with per-channel sample blocks of the configured read extent,
in-bounds pairwise-distinct derived coordinates), the driver loop completes
without error, consumes exactly `K` records, places each record's complex
samples bit-identically at the coordinate derived from its first channel's
loop counters — `output[coordinate with read = r, coil = c, ...] =
block[c * read_extent + r]` — and leaves every element not covered by some
record's block zero. -/
theorem C1_round_trip (vd : Bool) (dims : Coord) (pre post : List Byte)
    (recs : List SynRec) (buf0 : Buf)
    (hC : 0 < dims COIL_DIM)
    (hwf : ∀ rec ∈ recs, rec.samps.length = dims COIL_DIM ∧
      (∀ s ∈ rec.samps, s.length = dims READ_DIM * 8) ∧
      (∀ i, i ≠ COIL_DIM → specCoord rec.cnt i < dims i))
    (hdist : List.Pairwise (fun a b => ∃ i, i ≠ READ_DIM ∧ i ≠ COIL_DIM ∧
      specCoord a.cnt i ≠ specCoord b.cnt i) recs) :
    (driverLoop vd (pre ++ (synBytes vd (dims READ_DIM) (dims COIL_DIM) recs ++ post)) dims
        recs.length pre.length buf0 zeroOut).err = none ∧
    (driverLoop vd (pre ++ (synBytes vd (dims READ_DIM) (dims COIL_DIM) recs ++ post)) dims
        recs.length pre.length buf0 zeroOut).pos =
      pre.length + recs.length * recSize vd (dims READ_DIM) (dims COIL_DIM) ∧
    (∀ k, (hk : k < recs.length) → ∀ r c, r < dims READ_DIM → c < dims COIL_DIM →
      (driverLoop vd (pre ++ (synBytes vd (dims READ_DIM) (dims COIL_DIM) recs ++ post)) dims
          recs.length pre.length buf0 zeroOut).out
        (updCoord (specCoord recs[k].cnt) r c) =
        ((recs[k].samps.getD c []).drop (8 * r)).take 8) ∧
    (∀ idx : Coord, (∀ k, (hk : k < recs.length) →
        ¬ coversP dims (specCoord recs[k].cnt) idx) →
      (driverLoop vd (pre ++ (synBytes vd (dims READ_DIM) (dims COIL_DIM) recs ++ post)) dims
          recs.length pre.length buf0 zeroOut).out idx = zeroSample) := by
  have hrun := driverLoop_syn vd dims hC recs pre post buf0 zeroOut hwf
  rw [hrun]
  refine ⟨rfl, rfl, ?_, ?_⟩
  · intro k hk r c hr hc
    have hR : 0 < dims READ_DIM := by omega
    show placedOut dims recs zeroOut (updCoord (specCoord recs[k].cnt) r c) = _
    have hcov : coversP dims (specCoord recs[k].cnt)
        (updCoord (specCoord recs[k].cnt) r c) := by
      refine ⟨?_, ?_, ?_⟩
      · intro i hiR hiC
        exact updCoord_other _ r c i hiR hiC
      · rw [updCoord_read]
        exact hr
      · rw [updCoord_coil]
        exact hc
    have hothers : ∀ j, (hj : j < recs.length) → j ≠ k →
        ¬ coversP dims (specCoord recs[j].cnt)
          (updCoord (specCoord recs[k].cnt) r c) := by
      intro j hj hjk hcovj
      have hpw := List.pairwise_iff_get.mp hdist
      have hdiff : ∃ i, i ≠ READ_DIM ∧ i ≠ COIL_DIM ∧
          specCoord recs[j].cnt i ≠ specCoord recs[k].cnt i := by
        rcases Nat.lt_or_ge j k with hlt | hge
        · obtain ⟨i, h1, h2, h3⟩ := hpw ⟨j, hj⟩ ⟨k, hk⟩ hlt
          rw [List.get_eq_getElem, List.get_eq_getElem] at h3
          exact ⟨i, h1, h2, h3⟩
        · have hkj : k < j := by omega
          obtain ⟨i, h1, h2, h3⟩ := hpw ⟨k, hk⟩ ⟨j, hj⟩ hkj
          rw [List.get_eq_getElem, List.get_eq_getElem] at h3
          exact ⟨i, h1, h2, fun he => h3 he.symm⟩
      obtain ⟨i, h1, h2, h3⟩ := hdiff
      apply h3
      have e1 := hcovj.1 i h1 h2
      have e2 := hcov.1 i h1 h2
      rw [← e1, ← e2]
    rw [placedOut_covered dims recs zeroOut k hk _ hcov hothers]
    unfold idealBuf
    rw [updCoord_read, updCoord_coil]
    have h1 : (c * dims READ_DIM + r) / dims READ_DIM = c := by
      rw [Nat.add_comm, Nat.add_mul_div_right r c hR, Nat.div_eq_of_lt hr]
      omega
    have h2 : (c * dims READ_DIM + r) % dims READ_DIM = r := by
      rw [Nat.add_comm, Nat.add_mul_mod_self_right]
      exact Nat.mod_eq_of_lt hr
    rw [h1, h2]
  · intro idx hnone
    show placedOut dims recs zeroOut idx = zeroSample
    rw [placedOut_not_covered dims recs zeroOut idx (by
      intro x hx
      obtain ⟨j, hj, hxj⟩ := List.mem_iff_getElem.mp hx
      have hcj := hnone j hj
      rw [hxj] at hcj
      exact hcj)]
    rfl

theorem C1_round_trip_witness :
    (driverLoop false ([] ++ (synBytes false (wDims READ_DIM) (wDims COIL_DIM) wRecs ++ []))
        wDims wRecs.length (List.length ([] : List Byte)) wBuf zeroOut).err = none ∧
    (driverLoop false ([] ++ (synBytes false (wDims READ_DIM) (wDims COIL_DIM) wRecs ++ []))
        wDims wRecs.length (List.length ([] : List Byte)) wBuf zeroOut).out
      (updCoord (specCoord wRecB.cnt) 0 0) =
      ((wRecB.samps.getD 0 []).drop (8 * 0)).take 8 := by
  have h := C1_round_trip false wDims [] [] wRecs wBuf (by decide)
    (by decide)
    (by
      refine List.Pairwise.cons ?_ (List.pairwise_singleton _ _)
      intro y hy
      rw [List.mem_singleton] at hy
      subst hy
      exact ⟨PHS1_DIM, by decide, by decide, by decide⟩)
  exact ⟨h.1, h.2.2.1 1 (by decide) 0 0 (by decide) (by decide)⟩

/-! Header detection. -/

theorem setup_short (f : File) (hlt : f.length < 24) :
    siemens_meas_setup f = .error .io := by
  unfold siemens_meas_setup
  rw [xread_eq_err f 0 24 (by omega)]

theorem setup_read (f : File) (hge : 24 ≤ f.length) :
    xread f 0 24 = .ok (f.take 24, 24) := by
  have h := xread_eq_ok f 0 24 (by omega)
  simpa using h

/-- C2: layout detection.  The detector selects VD exactly when the raw
first-read header values satisfy `offset < 10000` and `scan_count < 64`
(the decision is a function of the leading 24 bytes alone), and any input
failing that predicate is classified as VB. -/
theorem C2_layout_detection (f : File) :
    (∀ vd hdr start, siemens_meas_setup f = .ok (vd, hdr, start) →
      (vd = true ↔ ((hdrOf f).offset < 10000 ∧ (hdrOf f).nscans < 64))) ∧
    (24 ≤ f.length → ¬((hdrOf f).offset < 10000 ∧ (hdrOf f).nscans < 64) →
      siemens_meas_setup f =
        .ok (false, { hdrOf f with nscans := 1 }, (hdrOf f).offset)) := by
  rcases Nat.lt_or_ge f.length 24 with hlt | hge
  · constructor
    · intro vd hdr start h
      rw [setup_short f hlt] at h
      exact absurd h (by simp)
    · intro h24
      omega
  · have hx := setup_read f hge
    constructor
    · intro vd hdr start h
      unfold siemens_meas_setup at h
      simp only [hx, show decodeHdr (f.take 24) = hdrOf f from rfl] at h
      by_cases hp : (hdrOf f).offset < 10000 ∧ (hdrOf f).nscans < 64
      · rw [if_pos hp] at h
        cases hxr : xread f (hdrOf f).datoff 4 with
        | error e =>
          rw [hxr] at h
          exact absurd h (by simp)
        | ok r2 =>
          rw [hxr] at h
          simp at h
          simp [h.1, hp]
      · rw [if_neg hp] at h
        simp at h
        simp [h.1, hp]
    · intro h24 hp
      unfold siemens_meas_setup
      simp only [hx, show decodeHdr (f.take 24) = hdrOf f from rfl]
      rw [if_neg hp]

theorem C2_layout_detection_witness :
    (24 ≤ (wVBFile wRecs).length ∧
      ¬((hdrOf (wVBFile wRecs)).offset < 10000 ∧ (hdrOf (wVBFile wRecs)).nscans < 64) ∧
      siemens_meas_setup (wVBFile wRecs) =
        .ok (false, { hdrOf (wVBFile wRecs) with nscans := 1 },
          (hdrOf (wVBFile wRecs)).offset)) ∧
    (∀ vd hdr start, siemens_meas_setup (wVDFile wRecs) = .ok (vd, hdr, start) →
      (vd = true ↔ ((hdrOf (wVDFile wRecs)).offset < 10000 ∧
        (hdrOf (wVDFile wRecs)).nscans < 64))) := by
  refine ⟨⟨by decide, by decide,
    (C2_layout_detection (wVBFile wRecs)).2 (by decide) (by decide)⟩, ?_⟩
  exact (C2_layout_detection (wVDFile wRecs)).1

/-- C3: detector positioning and `scan_count`.  On VD the detector re-reads
the 4-byte `offset` field at `data_offset` (overwriting the leading value),
leaves `scan_count` untouched, and positions the stream at
`data_offset + re-read offset`; on VB it forces `scan_count = 1`, keeps the
leading `offset`, and positions the stream at that offset from the file
start. -/
theorem C3_detector_positioning (f : File) (h24 : 24 ≤ f.length) :
    (((hdrOf f).offset < 10000 ∧ (hdrOf f).nscans < 64) →
      ((hdrOf f).datoff + 4 ≤ f.length →
        siemens_meas_setup f =
          .ok (true, { hdrOf f with offset := rereadOff f },
            (hdrOf f).datoff + rereadOff f)) ∧
      (f.length < (hdrOf f).datoff + 4 → siemens_meas_setup f = .error .io)) ∧
    (¬((hdrOf f).offset < 10000 ∧ (hdrOf f).nscans < 64) →
      siemens_meas_setup f =
        .ok (false, { hdrOf f with nscans := 1 }, (hdrOf f).offset)) := by
  have hx := setup_read f h24
  constructor
  · intro hp
    constructor
    · intro hd
      unfold siemens_meas_setup
      simp only [hx, show decodeHdr (f.take 24) = hdrOf f from rfl]
      rw [if_pos hp]
      rw [xread_eq_ok f (hdrOf f).datoff 4 (by omega)]
      rfl
    · intro hd
      unfold siemens_meas_setup
      simp only [hx, show decodeHdr (f.take 24) = hdrOf f from rfl]
      rw [if_pos hp]
      rw [xread_eq_err f (hdrOf f).datoff 4 (by omega)]
  · intro hp
    unfold siemens_meas_setup
    simp only [hx, show decodeHdr (f.take 24) = hdrOf f from rfl]
    rw [if_neg hp]

theorem C3_detector_positioning_witness :
    ((hdrOf (wVDFile wRecs)).offset < 10000 ∧ (hdrOf (wVDFile wRecs)).nscans < 64) ∧
    siemens_meas_setup (wVDFile wRecs) =
      .ok (true, { hdrOf (wVDFile wRecs) with offset := rereadOff (wVDFile wRecs) },
        (hdrOf (wVDFile wRecs)).datoff + rereadOff (wVDFile wRecs)) ∧
    siemens_meas_setup (wVBFile wRecs) =
      .ok (false, { hdrOf (wVBFile wRecs) with nscans := 1 },
        (hdrOf (wVBFile wRecs)).offset) := by
  refine ⟨by decide, ?_, ?_⟩
  · exact ((C3_detector_positioning (wVDFile wRecs) (by decide)).1 (by decide)).1 (by decide)
  · exact (C3_detector_positioning (wVBFile wRecs) (by decide)).2 (by decide)

/-! Inversion lemmas: what a successful run implies. -/

theorem xread_ok_inv (f : File) (p n : Nat) (r : List Byte × Nat)
    (h : xread f p n = .ok r) :
    r = ((f.drop p).take n, p + n) ∧ p + n ≤ f.length := by
  unfold xread bytesAt at h
  by_cases hc : p + n ≤ f.length
  · rw [if_pos hc] at h
    simp at h
    exact ⟨h.symm, hc⟩
  · rw [if_neg hc] at h
    simp at h

theorem adcChanLoop_succ_inv (vd : Bool) (f : File) (dims : Coord) (scan : List Byte)
    (rem c q : Nat) (pos : Coord) (buf : Buf) (res : Nat × Coord × Buf) (hc1 : 1 ≤ c)
    (h : adcChanLoop vd f dims scan (rem + 1) c q pos buf = .ok res) :
    q + chanHdrSize vd ≤ f.length ∧
    dims READ_DIM = (chanMdhAt vd f scan q).samples ∧
    md_is_index (Function.update pos COIL_DIM c) dims = true ∧
    q + chanHdrSize vd + dims READ_DIM * 8 ≤ f.length ∧
    adcChanLoop vd f dims scan rem (c + 1) (q + chanHdrSize vd + dims READ_DIM * 8)
      (Function.update pos COIL_DIM c)
      (writeSamples buf (c * dims READ_DIM) (dims READ_DIM)
        ((f.drop (q + chanHdrSize vd)).take (dims READ_DIM * 8))) = .ok res := by
  rw [adcChanLoop] at h
  cases hx : xread f q (chanHdrSize vd) with
  | error e =>
    rw [hx] at h
    exact absurd h (by simp)
  | ok rch =>
    obtain ⟨hrch, hlen1⟩ := xread_ok_inv f q _ rch hx
    rw [hx] at h
    subst hrch
    simp only [chanMdhAt_eq, if_neg (show ¬(c = 0) from by omega)] at h
    split at h
    · exact absurd h (by simp)
    · rename_i hne
      split at h
      · exact absurd h (by simp)
      · rename_i hmd
        cases hx2 : xread f (q + chanHdrSize vd) (dims READ_DIM * 8) with
        | error e =>
          rw [hx2] at h
          exact absurd h (by simp)
        | ok rsb =>
          obtain ⟨hrsb, hlen2⟩ := xread_ok_inv f _ _ rsb hx2
          rw [hx2] at h
          subst hrsb
          refine ⟨hlen1, by omega, ?_, hlen2, h⟩
          revert hmd
          cases md_is_index (Function.update pos COIL_DIM c) dims <;> simp

theorem adcChanLoop_zero_inv (vd : Bool) (f : File) (dims : Coord) (scan : List Byte)
    (rem q : Nat) (pos : Coord) (buf : Buf) (res : Nat × Coord × Buf)
    (h : adcChanLoop vd f dims scan (rem + 1) 0 q pos buf = .ok res) :
    q + chanHdrSize vd ≤ f.length ∧
    dims READ_DIM = (chanMdhAt vd f scan q).samples ∧
    md_is_index (setCoord (Function.update pos COIL_DIM 0) (chanMdhAt vd f scan q))
      dims = true ∧
    q + chanHdrSize vd + dims READ_DIM * 8 ≤ f.length ∧
    adcChanLoop vd f dims scan rem 1 (q + chanHdrSize vd + dims READ_DIM * 8)
      (setCoord (Function.update pos COIL_DIM 0) (chanMdhAt vd f scan q))
      (writeSamples buf (0 * dims READ_DIM) (dims READ_DIM)
        ((f.drop (q + chanHdrSize vd)).take (dims READ_DIM * 8))) = .ok res := by
  rw [adcChanLoop] at h
  cases hx : xread f q (chanHdrSize vd) with
  | error e =>
    rw [hx] at h
    exact absurd h (by simp)
  | ok rch =>
    obtain ⟨hrch, hlen1⟩ := xread_ok_inv f q _ rch hx
    rw [hx] at h
    subst hrch
    simp only [chanMdhAt_eq, if_true] at h
    split at h
    · exact absurd h (by simp)
    · rename_i hne
      split at h
      · exact absurd h (by simp)
      · rename_i hmd
        cases hx2 : xread f (q + chanHdrSize vd) (dims READ_DIM * 8) with
        | error e =>
          rw [hx2] at h
          exact absurd h (by simp)
        | ok rsb =>
          obtain ⟨hrsb, hlen2⟩ := xread_ok_inv f _ _ rsb hx2
          rw [hx2] at h
          subst hrsb
          refine ⟨hlen1, by omega, ?_, hlen2, h⟩
          revert hmd
          cases md_is_index (setCoord (Function.update pos COIL_DIM 0)
            (chanMdhAt vd f scan q)) dims <;> simp

theorem adcChanLoop_zero_ok (vd : Bool) (f : File) (dims : Coord) (scan : List Byte)
    (c q : Nat) (pos : Coord) (buf : Buf) (res : Nat × Coord × Buf)
    (h : adcChanLoop vd f dims scan 0 c q pos buf = .ok res) : res = (q, pos, buf) := by
  simp only [adcChanLoop] at h
  exact (by simpa using h.symm)

theorem adcChanLoop_keeps (vd : Bool) (f : File) (dims : Coord) (scan : List Byte) :
    ∀ (rem c q : Nat) (pos : Coord) (buf : Buf) (res : Nat × Coord × Buf),
      adcChanLoop vd f dims scan rem c q pos buf = .ok res →
      ∀ i, i ≠ COIL_DIM → i ≠ PHS1_DIM → i ≠ SLICE_DIM → i ≠ PHS2_DIM → i ≠ TE_DIM →
        i ≠ TIME_DIM → i ≠ TIME2_DIM → res.2.1 i = pos i := by
  intro rem
  induction rem with
  | zero =>
    intro c q pos buf res h i h1 h2 h3 h4 h5 h6 h7
    rw [adcChanLoop_zero_ok vd f dims scan c q pos buf res h]
  | succ rem ih =>
    intro c q pos buf res h i h1 h2 h3 h4 h5 h6 h7
    by_cases hc : c = 0
    · subst hc
      obtain ⟨_, _, _, _, hrec⟩ := adcChanLoop_zero_inv vd f dims scan rem q pos buf res h
      rw [ih 1 _ _ _ _ hrec i h1 h2 h3 h4 h5 h6 h7,
        setCoord_other _ _ _ h2 h3 h4 h5 h6 h7, Function.update_noteq h1]
    · obtain ⟨_, _, _, _, hrec⟩ := adcChanLoop_succ_inv vd f dims scan rem c q pos buf res
        (by omega) h
      rw [ih (c + 1) _ _ _ _ hrec i h1 h2 h3 h4 h5 h6 h7, Function.update_noteq h1]

theorem adcChanLoop_tail_keeps (vd : Bool) (f : File) (dims : Coord) (scan : List Byte) :
    ∀ (rem c q : Nat) (pos : Coord) (buf : Buf) (res : Nat × Coord × Buf), 1 ≤ c →
      adcChanLoop vd f dims scan rem c q pos buf = .ok res →
      ∀ i, i ≠ COIL_DIM → res.2.1 i = pos i := by
  intro rem
  induction rem with
  | zero =>
    intro c q pos buf res hc h i h1
    rw [adcChanLoop_zero_ok vd f dims scan c q pos buf res h]
  | succ rem ih =>
    intro c q pos buf res hc h i h1
    obtain ⟨_, _, _, _, hrec⟩ := adcChanLoop_succ_inv vd f dims scan rem c q pos buf res hc h
    rw [ih (c + 1) _ _ _ _ (by omega) hrec i h1, Function.update_noteq h1]

theorem adcChanLoop_first (vd : Bool) (f : File) (dims : Coord) (scan : List Byte)
    (rem q : Nat) (pos : Coord) (buf : Buf) (res : Nat × Coord × Buf)
    (h : adcChanLoop vd f dims scan (rem + 1) 0 q pos buf = .ok res) :
    ∀ i, i ≠ COIL_DIM →
      res.2.1 i = setCoord (Function.update pos COIL_DIM 0) (chanMdhAt vd f scan q) i := by
  intro i h1
  obtain ⟨_, _, _, _, hrec⟩ := adcChanLoop_zero_inv vd f dims scan rem q pos buf res h
  exact adcChanLoop_tail_keeps vd f dims scan rem 1 _ _ _ res (by omega) hrec i h1

theorem adcChanLoop_samples (vd : Bool) (f : File) (dims : Coord) (scan : List Byte) :
    ∀ (rem c q : Nat) (pos : Coord) (buf : Buf) (res : Nat × Coord × Buf),
      adcChanLoop vd f dims scan rem c q pos buf = .ok res →
      ∀ j, j < rem →
        dims READ_DIM =
          (chanMdhAt vd f scan (q + j * chanStride vd (dims READ_DIM))).samples := by
  intro rem
  induction rem with
  | zero =>
    intro c q pos buf res h j hj
    omega
  | succ rem ih =>
    intro c q pos buf res h j hj
    have e2 : chanStride vd (dims READ_DIM) = chanHdrSize vd + dims READ_DIM * 8 := rfl
    have hstep : dims READ_DIM = (chanMdhAt vd f scan q).samples ∧
        adcChanLoop vd f dims scan rem (c + 1) (q + chanHdrSize vd + dims READ_DIM * 8)
          (if c = 0 then setCoord (Function.update pos COIL_DIM c) (chanMdhAt vd f scan q)
            else Function.update pos COIL_DIM c)
          (writeSamples buf (c * dims READ_DIM) (dims READ_DIM)
            ((f.drop (q + chanHdrSize vd)).take (dims READ_DIM * 8))) = .ok res := by
      by_cases hc : c = 0
      · subst hc
        obtain ⟨_, hs, _, _, hrec⟩ := adcChanLoop_zero_inv vd f dims scan rem q pos buf res h
        exact ⟨hs, by simpa using hrec⟩
      · obtain ⟨_, hs, _, _, hrec⟩ := adcChanLoop_succ_inv vd f dims scan rem c q pos buf res
          (by omega) h
        exact ⟨hs, by simp only [if_neg hc]; exact hrec⟩
    cases j with
    | zero =>
      simpa using hstep.1
    | succ j =>
      have := ih (c + 1) _ _ _ _ hstep.2 j (by omega)
      rwa [show q + chanHdrSize vd + dims READ_DIM * 8 + j * chanStride vd (dims READ_DIM) =
        q + (j + 1) * chanStride vd (dims READ_DIM) from by
          have e5 : (j + 1) * chanStride vd (dims READ_DIM) =
            j * chanStride vd (dims READ_DIM) + chanStride vd (dims READ_DIM) := by ring
          omega] at this

theorem adcChanLoop_pos_adv (vd : Bool) (f : File) (dims : Coord) (scan : List Byte) :
    ∀ (rem c q : Nat) (pos : Coord) (buf : Buf) (res : Nat × Coord × Buf),
      adcChanLoop vd f dims scan rem c q pos buf = .ok res →
      res.1 = q + rem * chanStride vd (dims READ_DIM) := by
  intro rem
  induction rem with
  | zero =>
    intro c q pos buf res h
    rw [adcChanLoop_zero_ok vd f dims scan c q pos buf res h]
    simp
  | succ rem ih =>
    intro c q pos buf res h
    have e2 : chanStride vd (dims READ_DIM) = chanHdrSize vd + dims READ_DIM * 8 := rfl
    have e1 : (rem + 1) * chanStride vd (dims READ_DIM) =
        rem * chanStride vd (dims READ_DIM) + chanStride vd (dims READ_DIM) := by ring
    by_cases hc : c = 0
    · subst hc
      obtain ⟨_, _, _, _, hrec⟩ := adcChanLoop_zero_inv vd f dims scan rem q pos buf res h
      have := ih 1 _ _ _ _ hrec
      omega
    · obtain ⟨_, _, _, _, hrec⟩ := adcChanLoop_succ_inv vd f dims scan rem c q pos buf res
        (by omega) h
      have := ih (c + 1) _ _ _ _ hrec
      omega

theorem adc_read_ok_inv (vd : Bool) (f : File) (p : Nat) (dims pos0 : Coord) (buf : Buf)
    (res : Nat × Coord × Buf) (h : siemens_adc_read vd f p dims pos0 buf = .ok res) :
    p + scanHdrSize vd ≤ f.length ∧
    ∃ lres, adcChanLoop vd f dims ((f.drop p).take (scanHdrSize vd)) (dims COIL_DIM) 0
        (p + scanHdrSize vd) pos0 buf = .ok lres ∧
      res = (lres.1, Function.update lres.2.1 COIL_DIM 0, lres.2.2) := by
  cases hx : xread f p (scanHdrSize vd) with
  | error e =>
    unfold siemens_adc_read at h
    rw [hx] at h
    exact absurd h (by simp)
  | ok rs =>
    obtain ⟨hrs, hlen⟩ := xread_ok_inv f p _ rs hx
    subst hrs
    have h2 : (match adcChanLoop vd f dims ((f.drop p).take (scanHdrSize vd)) (dims COIL_DIM) 0
        (p + scanHdrSize vd) pos0 buf with
      | Except.error e => (Except.error e : Except Err (Nat × Coord × Buf))
      | Except.ok r => Except.ok (r.1, Function.update r.2.1 COIL_DIM 0, r.2.2)) = .ok res := by
      rw [← h]
      unfold siemens_adc_read
      rw [hx]
    refine ⟨hlen, ?_⟩
    cases hl : adcChanLoop vd f dims ((f.drop p).take (scanHdrSize vd)) (dims COIL_DIM) 0
        (p + scanHdrSize vd) pos0 buf with
    | error e =>
      rw [hl] at h2
      exact absurd h2 (by simp)
    | ok lres =>
      rw [hl] at h2
      simp at h2
      exact ⟨lres, rfl, h2.symm⟩

theorem chanMdhAt_zero (vd : Bool) (f : File) (p R : Nat) :
    chanMdhAt vd f ((f.drop p).take (scanHdrSize vd)) (p + scanHdrSize vd) =
      recMdh vd f R p 0 := by
  have := chanMdhAt_recMdh vd f R p 0
  rwa [show chanPos vd R p 0 = p + scanHdrSize vd from by simp [chanPos]] at this

theorem adc_read_coord (vd : Bool) (f : File) (p : Nat) (dims pos0 : Coord) (buf : Buf)
    (res : Nat × Coord × Buf) (hC : 0 < dims COIL_DIM)
    (h : siemens_adc_read vd f p dims pos0 buf = .ok res) :
    ∀ i, i ≠ COIL_DIM → res.2.1 i = derivedAt vd f p dims pos0 i := by
  obtain ⟨hlen, lres, hl, hres⟩ := adc_read_ok_inv vd f p dims pos0 buf res h
  obtain ⟨Cm, hCm⟩ : ∃ Cm, dims COIL_DIM = Cm + 1 := ⟨dims COIL_DIM - 1, by omega⟩
  rw [hCm] at hl
  intro i hi
  rw [hres]
  show Function.update lres.2.1 COIL_DIM 0 i = _
  rw [Function.update_noteq hi]
  rw [adcChanLoop_first vd f dims _ Cm _ pos0 buf lres hl i hi]
  unfold derivedAt
  rw [chanMdhAt_zero vd f p (dims READ_DIM)]

/-- C4: coordinate derivation.  The coordinate returned by the record
reader has phase1, slice, phase2, echo, time and time2 equal to loop
counters 0, 2, 3, 4, 6 and 7 of the metadata governing the first channel
(`c == 0`), with no center correction; it is a pure function of that first
channel metadata, so any file with the same first-channel metadata block
yields the same derived coordinate. -/
theorem C4_coordinate_derivation (vd : Bool) (f : File) (p : Nat) (dims pos0 : Coord)
    (buf : Buf) (res : Nat × Coord × Buf) (hC : 0 < dims COIL_DIM)
    (h : siemens_adc_read vd f p dims pos0 buf = .ok res) :
    (res.2.1 PHS1_DIM = (recMdh vd f (dims READ_DIM) p 0).sLC 0 ∧
     res.2.1 SLICE_DIM = (recMdh vd f (dims READ_DIM) p 0).sLC 2 ∧
     res.2.1 PHS2_DIM = (recMdh vd f (dims READ_DIM) p 0).sLC 3 ∧
     res.2.1 TE_DIM = (recMdh vd f (dims READ_DIM) p 0).sLC 4 ∧
     res.2.1 TIME_DIM = (recMdh vd f (dims READ_DIM) p 0).sLC 6 ∧
     res.2.1 TIME2_DIM = (recMdh vd f (dims READ_DIM) p 0).sLC 7) ∧
    (∀ (g : File) (res2 : Nat × Coord × Buf),
      recMdh vd g (dims READ_DIM) p 0 = recMdh vd f (dims READ_DIM) p 0 →
      siemens_adc_read vd g p dims pos0 buf = .ok res2 →
      res2.2.1 PHS1_DIM = res.2.1 PHS1_DIM ∧ res2.2.1 SLICE_DIM = res.2.1 SLICE_DIM ∧
      res2.2.1 PHS2_DIM = res.2.1 PHS2_DIM ∧ res2.2.1 TE_DIM = res.2.1 TE_DIM ∧
      res2.2.1 TIME_DIM = res.2.1 TIME_DIM ∧ res2.2.1 TIME2_DIM = res.2.1 TIME2_DIM) := by
  have hax : ∀ (g : File) (res2 : Nat × Coord × Buf),
      siemens_adc_read vd g p dims pos0 buf = .ok res2 →
      res2.2.1 PHS1_DIM = (recMdh vd g (dims READ_DIM) p 0).sLC 0 ∧
      res2.2.1 SLICE_DIM = (recMdh vd g (dims READ_DIM) p 0).sLC 2 ∧
      res2.2.1 PHS2_DIM = (recMdh vd g (dims READ_DIM) p 0).sLC 3 ∧
      res2.2.1 TE_DIM = (recMdh vd g (dims READ_DIM) p 0).sLC 4 ∧
      res2.2.1 TIME_DIM = (recMdh vd g (dims READ_DIM) p 0).sLC 6 ∧
      res2.2.1 TIME2_DIM = (recMdh vd g (dims READ_DIM) p 0).sLC 7 := by
    intro g res2 hg
    have hc := adc_read_coord vd g p dims pos0 buf res2 hC hg
    refine ⟨?_, ?_, ?_, ?_, ?_, ?_⟩
    · rw [hc PHS1_DIM (by decide)]
      exact setCoord_phs1 _ _
    · rw [hc SLICE_DIM (by decide)]
      exact setCoord_slice _ _
    · rw [hc PHS2_DIM (by decide)]
      exact setCoord_phs2 _ _
    · rw [hc TE_DIM (by decide)]
      exact setCoord_te _ _
    · rw [hc TIME_DIM (by decide)]
      exact setCoord_time _ _
    · rw [hc TIME2_DIM (by decide)]
      exact setCoord_time2 _ _
  have h1 := hax f res h
  refine ⟨h1, ?_⟩
  intro g res2 hmdh hg
  have h2 := hax g res2 hg
  rw [hmdh] at h2
  exact ⟨h2.1.trans h1.1.symm, h2.2.1.trans h1.2.1.symm, h2.2.2.1.trans h1.2.2.1.symm,
    h2.2.2.2.1.trans h1.2.2.2.1.symm, h2.2.2.2.2.1.trans h1.2.2.2.2.1.symm,
    h2.2.2.2.2.2.trans h1.2.2.2.2.2.symm⟩

theorem C4_coordinate_derivation_witness :
    okCoord (siemens_adc_read false
        ([] ++ (mkRecord false (wDims READ_DIM) (wDims COIL_DIM) wRecB ++ []))
        (List.length ([] : List Byte)) wDims zeroCoord wBuf) PHS1_DIM =
      (recMdh false ([] ++ (mkRecord false (wDims READ_DIM) (wDims COIL_DIM) wRecB ++ []))
        (wDims READ_DIM) (List.length ([] : List Byte)) 0).sLC 0 := by
  obtain ⟨buf2, heq, hch, hkp⟩ := adc_read_mkRecord false wDims [] [] wRecB wBuf
    (by decide) (by decide) (by decide) (by decide)
  have h := C4_coordinate_derivation false _ _ wDims zeroCoord wBuf _ (by decide) heq
  unfold okCoord
  rw [heq]
  exact h.1.1

/-- C7: per-record byte consumption and metadata location.  A successful
record read advances the stream by exactly one scan header (192 bytes VD,
0 bytes VB — a zero-byte read leaves the position unchanged) plus, per
channel, one channel header (32 bytes VD, 128 bytes VB) and the sample
data; the validated metadata of channel `c` is decoded from byte offset 40
of the scan header for VD (the same bytes for every channel) and from byte
offset 20 of channel `c`'s own header for VB. -/
theorem C7_record_layout (vd : Bool) (f : File) (p : Nat) (dims pos0 : Coord)
    (buf : Buf) (res : Nat × Coord × Buf)
    (h : siemens_adc_read vd f p dims pos0 buf = .ok res) :
    res.1 = p + scanHdrSize vd + dims COIL_DIM * chanStride vd (dims READ_DIM) ∧
    scanHdrSize true = 192 ∧ scanHdrSize false = 0 ∧
    chanHdrSize true = 32 ∧ chanHdrSize false = 128 ∧
    chanStride vd (dims READ_DIM) = chanHdrSize vd + dims READ_DIM * 8 ∧
    (p ≤ f.length → xread f p 0 = .ok ([], p)) ∧
    (∀ c, c < dims COIL_DIM →
      (recMdh vd f (dims READ_DIM) p c).samples = dims READ_DIM) ∧
    (∀ c c2 : Nat,
      recMdhBytes true f (dims READ_DIM) p c = recMdhBytes true f (dims READ_DIM) p c2) := by
  obtain ⟨hlen, lres, hl, hres⟩ := adc_read_ok_inv vd f p dims pos0 buf res h
  refine ⟨?_, rfl, rfl, rfl, rfl, rfl, ?_, ?_, fun c c2 => rfl⟩
  · rw [hres]
    show lres.1 = _
    rw [adcChanLoop_pos_adv vd f dims _ (dims COIL_DIM) 0 _ pos0 buf lres hl]
  · intro hp
    have := xread_eq_ok f p 0 (by omega)
    simpa using this
  · intro c hc
    have := adcChanLoop_samples vd f dims _ (dims COIL_DIM) 0 (p + scanHdrSize vd) pos0 buf
      lres hl c hc
    rw [show p + scanHdrSize vd + c * chanStride vd (dims READ_DIM) =
      chanPos vd (dims READ_DIM) p c from by simp [chanPos]] at this
    rw [chanMdhAt_recMdh vd f (dims READ_DIM) p c] at this
    exact this.symm

theorem C7_record_layout_witness :
    okPos (siemens_adc_read false
        ([] ++ (mkRecord false (wDims READ_DIM) (wDims COIL_DIM) wRecA ++ []))
        (List.length ([] : List Byte)) wDims zeroCoord wBuf) =
      List.length ([] : List Byte) + scanHdrSize false +
        wDims COIL_DIM * chanStride false (wDims READ_DIM) := by
  obtain ⟨buf2, heq, hch, hkp⟩ := adc_read_mkRecord false wDims [] [] wRecA wBuf
    (by decide) (by decide) (by decide) (by decide)
  have h := C7_record_layout false _ _ wDims zeroCoord wBuf _ heq
  unfold okPos
  rw [heq]
  exact h.1

/-- C9: coordinate reset.  After the record reader returns, the coil axis
of the returned coordinate is 0 (the per-record channel cursor is reset)
and the read axis is untouched, hence 0 for the driver's all-zero starting
coordinate; only the placement step positions those two axes. -/
theorem C9_coordinate_reset (vd : Bool) (f : File) (p : Nat) (dims pos0 : Coord)
    (buf : Buf) (res : Nat × Coord × Buf)
    (h : siemens_adc_read vd f p dims pos0 buf = .ok res) :
    res.2.1 COIL_DIM = 0 ∧ res.2.1 READ_DIM = pos0 READ_DIM ∧
    (pos0 = zeroCoord → res.2.1 READ_DIM = 0) := by
  obtain ⟨hlen, lres, hl, hres⟩ := adc_read_ok_inv vd f p dims pos0 buf res h
  have h2 : res.2.1 READ_DIM = pos0 READ_DIM := by
    rw [hres]
    show Function.update lres.2.1 COIL_DIM 0 READ_DIM = _
    rw [Function.update_noteq (by decide)]
    exact adcChanLoop_keeps vd f dims _ (dims COIL_DIM) 0 _ pos0 buf lres hl READ_DIM
      (by decide) (by decide) (by decide) (by decide) (by decide) (by decide) (by decide)
  refine ⟨?_, h2, ?_⟩
  · rw [hres]
    exact Function.update_same COIL_DIM 0 lres.2.1
  · intro hz
    rw [h2, hz]
    rfl

theorem C9_coordinate_reset_witness :
    okCoord (siemens_adc_read false
        ([] ++ (mkRecord false (wDims READ_DIM) (wDims COIL_DIM) wRecB ++ []))
        (List.length ([] : List Byte)) wDims zeroCoord wBuf) COIL_DIM = 0 ∧
    okCoord (siemens_adc_read false
        ([] ++ (mkRecord false (wDims READ_DIM) (wDims COIL_DIM) wRecB ++ []))
        (List.length ([] : List Byte)) wDims zeroCoord wBuf) READ_DIM = 0 := by
  obtain ⟨buf2, heq, hch, hkp⟩ := adc_read_mkRecord false wDims [] [] wRecB wBuf
    (by decide) (by decide) (by decide) (by decide)
  have h := C9_coordinate_reset false _ _ wDims zeroCoord wBuf _ heq
  unfold okCoord
  rw [heq]
  exact ⟨h.1, h.2.2 rfl⟩

/-! Constructing the fatal-error runs. -/

theorem adcChanLoop_step (vd : Bool) (f : File) (dims : Coord) (scan : List Byte)
    (rem c q : Nat) (pos : Coord) (buf : Buf) (hc : 1 ≤ c)
    (hlen : q + chanHdrSize vd + dims READ_DIM * 8 ≤ f.length)
    (hsamp : dims READ_DIM = (chanMdhAt vd f scan q).samples)
    (hidx : md_is_index (Function.update pos COIL_DIM c) dims = true) :
    adcChanLoop vd f dims scan (rem + 1) c q pos buf =
      adcChanLoop vd f dims scan rem (c + 1) (q + chanHdrSize vd + dims READ_DIM * 8)
        (Function.update pos COIL_DIM c)
        (writeSamples buf (c * dims READ_DIM) (dims READ_DIM)
          ((f.drop (q + chanHdrSize vd)).take (dims READ_DIM * 8))) := by
  rw [adcChanLoop, xread_eq_ok f q (chanHdrSize vd) (by omega)]
  simp only [chanMdhAt_eq]
  rw [if_neg (show ¬(c = 0) from by omega)]
  rw [if_neg (show ¬(dims READ_DIM ≠ (chanMdhAt vd f scan q).samples) from by simp [hsamp])]
  rw [if_neg (show ¬(md_is_index (Function.update pos COIL_DIM c) dims = false) from by
    simp [hidx])]
  rw [xread_eq_ok f (q + chanHdrSize vd) (dims READ_DIM * 8) (by omega)]

theorem adcChanLoop_step0 (vd : Bool) (f : File) (dims : Coord) (scan : List Byte)
    (rem q : Nat) (pos : Coord) (buf : Buf)
    (hlen : q + chanHdrSize vd + dims READ_DIM * 8 ≤ f.length)
    (hsamp : dims READ_DIM = (chanMdhAt vd f scan q).samples)
    (hidx : md_is_index (setCoord (Function.update pos COIL_DIM 0) (chanMdhAt vd f scan q))
      dims = true) :
    adcChanLoop vd f dims scan (rem + 1) 0 q pos buf =
      adcChanLoop vd f dims scan rem 1 (q + chanHdrSize vd + dims READ_DIM * 8)
        (setCoord (Function.update pos COIL_DIM 0) (chanMdhAt vd f scan q))
        (writeSamples buf (0 * dims READ_DIM) (dims READ_DIM)
          ((f.drop (q + chanHdrSize vd)).take (dims READ_DIM * 8))) := by
  rw [adcChanLoop, xread_eq_ok f q (chanHdrSize vd) (by omega)]
  simp only [chanMdhAt_eq, if_true]
  rw [if_neg (show ¬(dims READ_DIM ≠ (chanMdhAt vd f scan q).samples) from by simp [hsamp])]
  rw [if_neg (show ¬(md_is_index (setCoord (Function.update pos COIL_DIM 0)
    (chanMdhAt vd f scan q)) dims = false) from by simp [hidx])]
  rw [xread_eq_ok f (q + chanHdrSize vd) (dims READ_DIM * 8) (by omega)]

theorem adcChanLoop_step_fmt (vd : Bool) (f : File) (dims : Coord) (scan : List Byte)
    (rem c q : Nat) (pos : Coord) (buf : Buf)
    (hlen : q + chanHdrSize vd ≤ f.length)
    (hbad : dims READ_DIM ≠ (chanMdhAt vd f scan q).samples) :
    adcChanLoop vd f dims scan (rem + 1) c q pos buf = .error .fmt := by
  rw [adcChanLoop, xread_eq_ok f q (chanHdrSize vd) hlen]
  simp only [chanMdhAt_eq]
  rw [if_pos hbad]

theorem adcChanLoop_step_assert0 (vd : Bool) (f : File) (dims : Coord) (scan : List Byte)
    (rem q : Nat) (pos : Coord) (buf : Buf)
    (hlen : q + chanHdrSize vd ≤ f.length)
    (hsamp : dims READ_DIM = (chanMdhAt vd f scan q).samples)
    (hoob : md_is_index (setCoord (Function.update pos COIL_DIM 0) (chanMdhAt vd f scan q))
      dims = false) :
    adcChanLoop vd f dims scan (rem + 1) 0 q pos buf = .error .assertFail := by
  rw [adcChanLoop, xread_eq_ok f q (chanHdrSize vd) hlen]
  simp only [chanMdhAt_eq, if_true]
  rw [if_neg (show ¬(dims READ_DIM ≠ (chanMdhAt vd f scan q).samples) from by simp [hsamp])]
  rw [if_pos hoob]

theorem adcChanLoop_fmt (vd : Bool) (f : File) (dims : Coord) (scan : List Byte) :
    ∀ (k rem c q : Nat) (pos : Coord) (buf : Buf), 1 ≤ c → k < rem →
      q + k * chanStride vd (dims READ_DIM) + chanHdrSize vd ≤ f.length →
      (∀ j, j < k →
        dims READ_DIM =
          (chanMdhAt vd f scan (q + j * chanStride vd (dims READ_DIM))).samples) →
      (∀ j, j < k → md_is_index (Function.update pos COIL_DIM (c + j)) dims = true) →
      dims READ_DIM ≠
        (chanMdhAt vd f scan (q + k * chanStride vd (dims READ_DIM))).samples →
      adcChanLoop vd f dims scan rem c q pos buf = .error .fmt := by
  intro k
  induction k with
  | zero =>
    intro rem c q pos buf hc hk hlen hok hidx hbad
    obtain ⟨rem2, hrem⟩ : ∃ rem2, rem = rem2 + 1 := ⟨rem - 1, by omega⟩
    subst hrem
    exact adcChanLoop_step_fmt vd f dims scan rem2 c q pos buf (by omega)
      (by simpa using hbad)
  | succ k ih =>
    intro rem c q pos buf hc hk hlen hok hidx hbad
    obtain ⟨rem2, hrem⟩ : ∃ rem2, rem = rem2 + 1 := ⟨rem - 1, by omega⟩
    subst hrem
    have e2 : chanStride vd (dims READ_DIM) = chanHdrSize vd + dims READ_DIM * 8 := rfl
    have e1 : (k + 1) * chanStride vd (dims READ_DIM) =
        k * chanStride vd (dims READ_DIM) + chanStride vd (dims READ_DIM) := by ring
    rw [adcChanLoop_step vd f dims scan rem2 c q pos buf hc (by omega)
      (by simpa using hok 0 (by omega)) (by simpa using hidx 0 (by omega))]
    apply ih rem2 (c + 1) (q + chanHdrSize vd + dims READ_DIM * 8)
      (Function.update pos COIL_DIM c) _ (by omega) (by omega) (by omega)
    · intro j hj
      have := hok (j + 1) (by omega)
      rwa [show q + (j + 1) * chanStride vd (dims READ_DIM) =
        q + chanHdrSize vd + dims READ_DIM * 8 + j * chanStride vd (dims READ_DIM) from by
          have e5 : (j + 1) * chanStride vd (dims READ_DIM) =
            j * chanStride vd (dims READ_DIM) + chanStride vd (dims READ_DIM) := by ring
          omega] at this
    · intro j hj
      rw [Function.update_idem]
      have := hidx (j + 1) (by omega)
      rwa [show c + (j + 1) = c + 1 + j from by omega] at this
    · have := hbad
      rwa [show q + (k + 1) * chanStride vd (dims READ_DIM) =
        q + chanHdrSize vd + dims READ_DIM * 8 + k * chanStride vd (dims READ_DIM) from by
          omega] at this

theorem adc_read_unfold (vd : Bool) (f : File) (p : Nat) (dims pos0 : Coord) (buf : Buf)
    (hlen : p + scanHdrSize vd ≤ f.length) :
    siemens_adc_read vd f p dims pos0 buf =
      match adcChanLoop vd f dims ((f.drop p).take (scanHdrSize vd)) (dims COIL_DIM) 0
          (p + scanHdrSize vd) pos0 buf with
      | Except.error e => (Except.error e : Except Err (Nat × Coord × Buf))
      | Except.ok r => Except.ok (r.1, Function.update r.2.1 COIL_DIM 0, r.2.2) := by
  unfold siemens_adc_read
  rw [xread_eq_ok f p (scanHdrSize vd) hlen]

theorem adc_read_fmt (vd : Bool) (f : File) (p : Nat) (dims pos0 : Coord) (buf : Buf)
    (k : Nat) (hk : k < dims COIL_DIM)
    (hlen : p + scanHdrSize vd + k * chanStride vd (dims READ_DIM) + chanHdrSize vd ≤
      f.length)
    (hok : ∀ j, j < k → (recMdh vd f (dims READ_DIM) p j).samples = dims READ_DIM)
    (hidx : ∀ j, j < k →
      md_is_index (Function.update (derivedAt vd f p dims pos0) COIL_DIM j) dims = true)
    (hbad : (recMdh vd f (dims READ_DIM) p k).samples ≠ dims READ_DIM) :
    siemens_adc_read vd f p dims pos0 buf = .error .fmt := by
  have e2 : chanStride vd (dims READ_DIM) = chanHdrSize vd + dims READ_DIM * 8 := rfl
  have hscan : p + scanHdrSize vd ≤ f.length := by omega
  rw [adc_read_unfold vd f p dims pos0 buf hscan]
  have hmdhc : ∀ j, chanMdhAt vd f ((f.drop p).take (scanHdrSize vd))
      (p + scanHdrSize vd + j * chanStride vd (dims READ_DIM)) =
      recMdh vd f (dims READ_DIM) p j := by
    intro j
    have := chanMdhAt_recMdh vd f (dims READ_DIM) p j
    rwa [show chanPos vd (dims READ_DIM) p j =
      p + scanHdrSize vd + j * chanStride vd (dims READ_DIM) from by simp [chanPos]] at this
  obtain ⟨Cm, hCm⟩ : ∃ Cm, dims COIL_DIM = Cm + 1 := ⟨dims COIL_DIM - 1, by omega⟩
  have hloopfmt : adcChanLoop vd f dims ((f.drop p).take (scanHdrSize vd)) (dims COIL_DIM) 0
      (p + scanHdrSize vd) pos0 buf = .error .fmt := by
    cases k with
    | zero =>
      rw [hCm]
      apply adcChanLoop_step_fmt vd f dims _ Cm 0 (p + scanHdrSize vd) pos0 buf (by omega)
      rw [show p + scanHdrSize vd = p + scanHdrSize vd + 0 * chanStride vd (dims READ_DIM)
        from by omega, hmdhc 0]
      exact fun he => hbad he.symm
    | succ k =>
      rw [hCm]
      rw [adcChanLoop_step0 vd f dims _ Cm (p + scanHdrSize vd) pos0 buf (by
          have e1 : (k + 1) * chanStride vd (dims READ_DIM) =
            k * chanStride vd (dims READ_DIM) + chanStride vd (dims READ_DIM) := by ring
          omega)
        (by
          rw [show p + scanHdrSize vd = p + scanHdrSize vd +
            0 * chanStride vd (dims READ_DIM) from by omega, hmdhc 0]
          exact (hok 0 (by omega)).symm)
        (by
          rw [show p + scanHdrSize vd = p + scanHdrSize vd +
            0 * chanStride vd (dims READ_DIM) from by omega, hmdhc 0]
          have := hidx 0 (by omega)
          rwa [update_coil_derived vd f p dims pos0] at this)]
      rw [show p + scanHdrSize vd = p + scanHdrSize vd + 0 * chanStride vd (dims READ_DIM)
        from by omega, hmdhc 0]
      apply adcChanLoop_fmt vd f dims _ k Cm 1 _ _ _ (by omega) (by omega)
        (by
          have e1 : (k + 1) * chanStride vd (dims READ_DIM) =
            k * chanStride vd (dims READ_DIM) + chanStride vd (dims READ_DIM) := by ring
          omega)
        (by
          intro j hj
          rw [show p + scanHdrSize vd + 0 * chanStride vd (dims READ_DIM) + chanHdrSize vd +
            dims READ_DIM * 8 + j * chanStride vd (dims READ_DIM) =
            p + scanHdrSize vd + (j + 1) * chanStride vd (dims READ_DIM) from by
              have e5 : (j + 1) * chanStride vd (dims READ_DIM) =
                j * chanStride vd (dims READ_DIM) + chanStride vd (dims READ_DIM) := by ring
              omega, hmdhc (j + 1)]
          exact (hok (j + 1) (by omega)).symm)
        (by
          intro j hj
          have := hidx (j + 1) (by omega)
          unfold derivedAt at this
          rwa [show 1 + j = j + 1 from by omega])
        (by
          rw [show p + scanHdrSize vd + 0 * chanStride vd (dims READ_DIM) + chanHdrSize vd +
            dims READ_DIM * 8 + k * chanStride vd (dims READ_DIM) =
            p + scanHdrSize vd + (k + 1) * chanStride vd (dims READ_DIM) from by
              have e5 : (k + 1) * chanStride vd (dims READ_DIM) =
                k * chanStride vd (dims READ_DIM) + chanStride vd (dims READ_DIM) := by ring
              omega, hmdhc (k + 1)]
          exact fun he => hbad he.symm)
  rw [hloopfmt]

theorem adc_read_assert (vd : Bool) (f : File) (p : Nat) (dims pos0 : Coord) (buf : Buf)
    (hC : 0 < dims COIL_DIM)
    (hlen : p + scanHdrSize vd + chanHdrSize vd ≤ f.length)
    (hsamp0 : (recMdh vd f (dims READ_DIM) p 0).samples = dims READ_DIM)
    (hoob : ¬(∀ i, derivedAt vd f p dims pos0 i < dims i)) :
    siemens_adc_read vd f p dims pos0 buf = .error .assertFail := by
  rw [adc_read_unfold vd f p dims pos0 buf (by omega)]
  obtain ⟨Cm, hCm⟩ : ∃ Cm, dims COIL_DIM = Cm + 1 := ⟨dims COIL_DIM - 1, by omega⟩
  have hloop : adcChanLoop vd f dims ((f.drop p).take (scanHdrSize vd)) (dims COIL_DIM) 0
      (p + scanHdrSize vd) pos0 buf = .error .assertFail := by
    rw [hCm]
    apply adcChanLoop_step_assert0 vd f dims _ Cm (p + scanHdrSize vd) pos0 buf (by omega)
    · rw [chanMdhAt_zero vd f p (dims READ_DIM)]
      exact hsamp0.symm
    · rw [chanMdhAt_zero vd f p (dims READ_DIM)]
      show md_is_index (derivedAt vd f p dims pos0) dims = false
      unfold md_is_index
      exact decide_eq_false hoob
  rw [hloop]

theorem adcChanLoop_no_fmt (vd : Bool) (f : File) (dims : Coord) (scan : List Byte) :
    ∀ (rem c q : Nat) (pos : Coord) (buf : Buf),
      (∀ j, j < rem →
        (chanMdhAt vd f scan (q + j * chanStride vd (dims READ_DIM))).samples =
          dims READ_DIM) →
      adcChanLoop vd f dims scan rem c q pos buf ≠ .error .fmt := by
  intro rem
  induction rem with
  | zero =>
    intro c q pos buf hok h
    simp [adcChanLoop] at h
  | succ rem ih =>
    intro c q pos buf hok h
    have e2 : chanStride vd (dims READ_DIM) = chanHdrSize vd + dims READ_DIM * 8 := rfl
    have hok0 : (chanMdhAt vd f scan q).samples = dims READ_DIM := by
      simpa using hok 0 (by omega)
    by_cases h1 : q + chanHdrSize vd ≤ f.length
    · rw [adcChanLoop, xread_eq_ok f q _ h1] at h
      simp only [chanMdhAt_eq] at h
      rw [if_neg (show ¬(dims READ_DIM ≠ (chanMdhAt vd f scan q).samples) from by
        simp [hok0])] at h
      by_cases hmd : md_is_index (if c = 0 then
          setCoord (Function.update pos COIL_DIM c) (chanMdhAt vd f scan q)
        else Function.update pos COIL_DIM c) dims = false
      · rw [if_pos hmd] at h
        exact Err.noConfusion (Except.error.inj h)
      · rw [if_neg hmd] at h
        by_cases h2 : q + chanHdrSize vd + dims READ_DIM * 8 ≤ f.length
        · simp only [xread_eq_ok f (q + chanHdrSize vd) (dims READ_DIM * 8) h2] at h
          apply ih (c + 1) (q + chanHdrSize vd + dims READ_DIM * 8) _ _ ?_ h
          intro j hj
          have := hok (j + 1) (by omega)
          rwa [show q + (j + 1) * chanStride vd (dims READ_DIM) =
            q + chanHdrSize vd + dims READ_DIM * 8 + j * chanStride vd (dims READ_DIM)
            from by
              have e5 : (j + 1) * chanStride vd (dims READ_DIM) =
                j * chanStride vd (dims READ_DIM) + chanStride vd (dims READ_DIM) := by ring
              omega] at this
        · simp only [xread_eq_err f (q + chanHdrSize vd) (dims READ_DIM * 8)
            (by omega)] at h
          exact Err.noConfusion (Except.error.inj h)
    · rw [adcChanLoop, xread_eq_err f q _ (by omega)] at h
      exact Err.noConfusion (Except.error.inj h)

theorem adc_read_no_fmt (vd : Bool) (f : File) (p : Nat) (dims pos0 : Coord) (buf : Buf)
    (hall : ∀ c, c < dims COIL_DIM →
      (recMdh vd f (dims READ_DIM) p c).samples = dims READ_DIM) :
    siemens_adc_read vd f p dims pos0 buf ≠ .error .fmt := by
  intro h
  by_cases hs : p + scanHdrSize vd ≤ f.length
  · rw [adc_read_unfold vd f p dims pos0 buf hs] at h
    have hmdhc : ∀ j, chanMdhAt vd f ((f.drop p).take (scanHdrSize vd))
        (p + scanHdrSize vd + j * chanStride vd (dims READ_DIM)) =
        recMdh vd f (dims READ_DIM) p j := by
      intro j
      have := chanMdhAt_recMdh vd f (dims READ_DIM) p j
      rwa [show chanPos vd (dims READ_DIM) p j =
        p + scanHdrSize vd + j * chanStride vd (dims READ_DIM) from by simp [chanPos]] at this
    cases hl : adcChanLoop vd f dims ((f.drop p).take (scanHdrSize vd)) (dims COIL_DIM) 0
        (p + scanHdrSize vd) pos0 buf with
    | ok r =>
      simp only [hl] at h
      exact Except.noConfusion h
    | error e =>
      simp only [hl] at h
      have he : e = Err.fmt := Except.error.inj h
      subst he
      apply adcChanLoop_no_fmt vd f dims ((f.drop p).take (scanHdrSize vd)) (dims COIL_DIM)
        0 (p + scanHdrSize vd) pos0 buf ?_ hl
      intro j hj
      rw [hmdhc j]
      exact hall j hj
  · unfold siemens_adc_read at h
    rw [xread_eq_err f p (scanHdrSize vd) (by omega)] at h
    exact Err.noConfusion (Except.error.inj h)

/-- C5: sample-count validation.  A record read only succeeds when the
decoded `sample_count` of every channel equals the configured read extent;
a mismatch at any channel (all earlier channels being valid) aborts with
the fatal format error, and the driver stops at an erroring record with the
output array exactly as it was (nothing written past the failure); and when
every channel's decoded `sample_count` equals the read extent, the format
error is never raised. -/
theorem C5_sample_count_validation :
    (∀ (vd : Bool) (f : File) (p : Nat) (dims pos0 : Coord) (buf : Buf)
        (res : Nat × Coord × Buf),
      siemens_adc_read vd f p dims pos0 buf = .ok res →
      ∀ c, c < dims COIL_DIM →
        (recMdh vd f (dims READ_DIM) p c).samples = dims READ_DIM) ∧
    (∀ (vd : Bool) (f : File) (p : Nat) (dims pos0 : Coord) (buf : Buf) (k : Nat),
      k < dims COIL_DIM →
      p + scanHdrSize vd + k * chanStride vd (dims READ_DIM) + chanHdrSize vd ≤ f.length →
      (∀ j, j < k → (recMdh vd f (dims READ_DIM) p j).samples = dims READ_DIM) →
      (∀ j, j < k →
        md_is_index (Function.update (derivedAt vd f p dims pos0) COIL_DIM j) dims = true) →
      (recMdh vd f (dims READ_DIM) p k).samples ≠ dims READ_DIM →
      siemens_adc_read vd f p dims pos0 buf = .error .fmt) ∧
    (∀ (vd : Bool) (f : File) (dims : Coord) (n p : Nat) (buf : Buf) (out : Out) (e : Err),
      siemens_adc_read vd f p dims zeroCoord buf = .error e →
      driverLoop vd f dims (n + 1) p buf out = ⟨out, some e, p⟩) ∧
    (∀ (vd : Bool) (f : File) (p : Nat) (dims pos0 : Coord) (buf : Buf),
      (∀ c, c < dims COIL_DIM →
        (recMdh vd f (dims READ_DIM) p c).samples = dims READ_DIM) →
      siemens_adc_read vd f p dims pos0 buf ≠ .error .fmt) := by
  refine ⟨?_, ?_, ?_, ?_⟩
  · intro vd f p dims pos0 buf res h c hc
    obtain ⟨hlen, lres, hl, hres⟩ := adc_read_ok_inv vd f p dims pos0 buf res h
    have := adcChanLoop_samples vd f dims _ (dims COIL_DIM) 0 (p + scanHdrSize vd) pos0 buf
      lres hl c hc
    rw [show p + scanHdrSize vd + c * chanStride vd (dims READ_DIM) =
      chanPos vd (dims READ_DIM) p c from by simp [chanPos]] at this
    rw [chanMdhAt_recMdh vd f (dims READ_DIM) p c] at this
    exact this.symm
  · intro vd f p dims pos0 buf k hk hlen hok hidx hbad
    exact adc_read_fmt vd f p dims pos0 buf k hk hlen hok hidx hbad
  · intro vd f dims n p buf out e h
    simp only [driverLoop, h]
  · intro vd f p dims pos0 buf hall
    exact adc_read_no_fmt vd f p dims pos0 buf hall

theorem C5_sample_count_validation_witness :
    siemens_adc_read false (mkRecord false 2 1 wBadRec) 0 wDims zeroCoord wBuf =
      .error .fmt ∧
    driverLoop false (mkRecord false 2 1 wBadRec) wDims 1 0 wBuf zeroOut =
      ⟨zeroOut, some .fmt, 0⟩ ∧
    siemens_adc_read false (mkRecord false 1 1 wRecA) 0 wDims zeroCoord wBuf ≠
      .error .fmt := by
  have herr := C5_sample_count_validation.2.1 false (mkRecord false 2 1 wBadRec) 0 wDims
    zeroCoord wBuf 0 (by decide) (by decide) (by omega) (by omega) (by decide)
  exact ⟨herr,
    C5_sample_count_validation.2.2.1 false (mkRecord false 2 1 wBadRec) wDims 0 0 wBuf
      zeroOut Err.fmt herr,
    C5_sample_count_validation.2.2.2 false (mkRecord false 1 1 wRecA) 0 wDims zeroCoord
      wBuf (by decide)⟩

/-- C6: coordinate bounds check.  A record read only succeeds when the
coordinate derived from its first channel's loop counters is in-bounds for
every configured dimension; an out-of-bounds coordinate aborts the whole
conversion with the fatal assertion failure before any sample of the record
is placed, and the driver stops at the erroring record with the output
array unchanged (no out-of-bounds write, no clamping). -/
theorem C6_bounds_check :
    (∀ (vd : Bool) (f : File) (p : Nat) (dims pos0 : Coord) (buf : Buf)
        (res : Nat × Coord × Buf),
      siemens_adc_read vd f p dims pos0 buf = .ok res →
      0 < dims COIL_DIM → ∀ i, derivedAt vd f p dims pos0 i < dims i) ∧
    (∀ (vd : Bool) (f : File) (p : Nat) (dims pos0 : Coord) (buf : Buf),
      0 < dims COIL_DIM →
      p + scanHdrSize vd + chanHdrSize vd ≤ f.length →
      (recMdh vd f (dims READ_DIM) p 0).samples = dims READ_DIM →
      ¬(∀ i, derivedAt vd f p dims pos0 i < dims i) →
      siemens_adc_read vd f p dims pos0 buf = .error .assertFail) ∧
    (∀ (vd : Bool) (f : File) (dims : Coord) (n p : Nat) (buf : Buf) (out : Out) (e : Err),
      siemens_adc_read vd f p dims zeroCoord buf = .error e →
      driverLoop vd f dims (n + 1) p buf out = ⟨out, some e, p⟩) := by
  refine ⟨?_, ?_, ?_⟩
  · intro vd f p dims pos0 buf res h hC
    obtain ⟨hlen, lres, hl, hres⟩ := adc_read_ok_inv vd f p dims pos0 buf res h
    obtain ⟨Cm, hCm⟩ : ∃ Cm, dims COIL_DIM = Cm + 1 := ⟨dims COIL_DIM - 1, by omega⟩
    rw [hCm] at hl
    obtain ⟨_, _, hmd, _, _⟩ := adcChanLoop_zero_inv vd f dims _ Cm _ pos0 buf lres hl
    rw [chanMdhAt_zero vd f p (dims READ_DIM)] at hmd
    exact (md_is_index_iff _ _).mp hmd
  · intro vd f p dims pos0 buf hC hlen hsamp0 hoob
    exact adc_read_assert vd f p dims pos0 buf hC hlen hsamp0 hoob
  · intro vd f dims n p buf out e h
    simp only [driverLoop, h]

theorem C6_bounds_check_witness :
    siemens_adc_read false (mkRecord false 1 1 wOobRec) 0 wDims zeroCoord wBuf =
      .error .assertFail ∧
    driverLoop false (mkRecord false 1 1 wOobRec) wDims 1 0 wBuf zeroOut =
      ⟨zeroOut, some .assertFail, 0⟩ := by
  have herr := C6_bounds_check.2.1 false (mkRecord false 1 1 wOobRec) 0 wDims
    zeroCoord wBuf (by decide) (by decide) (by decide) (by decide)
  exact ⟨herr,
    C6_bounds_check.2.2 false (mkRecord false 1 1 wOobRec) wDims 0 0 wBuf zeroOut
      Err.assertFail herr⟩

/-! The driver loop: record count, position advance, and independence from
trailing file content. -/

theorem adc_read_pos_adv (vd : Bool) (f : File) (p : Nat) (dims pos0 : Coord) (buf : Buf)
    (res : Nat × Coord × Buf) (h : siemens_adc_read vd f p dims pos0 buf = .ok res) :
    res.1 = p + recSize vd (dims READ_DIM) (dims COIL_DIM) := by
  obtain ⟨hlen, lres, hl, hres⟩ := adc_read_ok_inv vd f p dims pos0 buf res h
  rw [hres]
  show lres.1 = _
  rw [adcChanLoop_pos_adv vd f dims _ (dims COIL_DIM) 0 _ pos0 buf lres hl]
  rw [show recSize vd (dims READ_DIM) (dims COIL_DIM) =
    scanHdrSize vd + dims COIL_DIM * chanStride vd (dims READ_DIM) from rfl]
  omega

theorem driverLoop_pos (vd : Bool) (f : File) (dims : Coord) :
    ∀ (n p : Nat) (buf : Buf) (out : Out),
      (driverLoop vd f dims n p buf out).err = none →
      (driverLoop vd f dims n p buf out).pos =
        p + n * recSize vd (dims READ_DIM) (dims COIL_DIM) := by
  intro n
  induction n with
  | zero =>
    intro p buf out herr
    simp [driverLoop]
  | succ n ih =>
    intro p buf out herr
    cases hr : siemens_adc_read vd f p dims zeroCoord buf with
    | error e =>
      simp only [driverLoop, hr] at herr
      exact absurd herr (by simp)
    | ok res =>
      obtain ⟨p2, pos2, buf2⟩ := res
      have hp2 : p2 = p + recSize vd (dims READ_DIM) (dims COIL_DIM) :=
        adc_read_pos_adv vd f p dims zeroCoord buf (p2, pos2, buf2) hr
      simp only [driverLoop, hr] at herr ⊢
      rw [ih p2 buf2 _ herr, hp2]
      have e1 : (n + 1) * recSize vd (dims READ_DIM) (dims COIL_DIM) =
          n * recSize vd (dims READ_DIM) (dims COIL_DIM) +
            recSize vd (dims READ_DIM) (dims COIL_DIM) := by ring
      omega

theorem xread_mono (f g : File) (p n : Nat) (r : List Byte × Nat)
    (h : xread f p n = .ok r) : xread (f ++ g) p n = .ok r := by
  obtain ⟨hr, hlen⟩ := xread_ok_inv f p n r h
  rw [xread_eq_ok (f ++ g) p n (by simp; omega)]
  rw [extract_within f g p n (by omega)]
  rw [hr]

theorem chanMdhAt_mono (vd : Bool) (f g : File) (scan : List Byte) (q : Nat)
    (h : q + chanHdrSize vd ≤ f.length) :
    chanMdhAt vd (f ++ g) scan q = chanMdhAt vd f scan q := by
  cases vd
  · unfold chanMdhAt
    simp only [Bool.false_eq_true, if_false]
    rw [extract_within f g (q + 20) 60 (by
      have : chanHdrSize false = 128 := rfl
      omega)]
  · rfl

theorem adcChanLoop_mono (vd : Bool) (f g : File) (dims : Coord) (scan : List Byte) :
    ∀ (rem c q : Nat) (pos : Coord) (buf : Buf) (res : Nat × Coord × Buf),
      adcChanLoop vd f dims scan rem c q pos buf = .ok res →
      adcChanLoop vd (f ++ g) dims scan rem c q pos buf = .ok res := by
  intro rem
  induction rem with
  | zero =>
    intro c q pos buf res h
    simpa [adcChanLoop] using h
  | succ rem ih =>
    intro c q pos buf res h
    by_cases hc : c = 0
    · subst hc
      obtain ⟨hlen1, hsamp, hmd, hlen2, hrec⟩ :=
        adcChanLoop_zero_inv vd f dims scan rem q pos buf res h
      rw [adcChanLoop_step0 vd (f ++ g) dims scan rem q pos buf (by simp; omega)
        (by rwa [chanMdhAt_mono vd f g scan q hlen1])
        (by rwa [chanMdhAt_mono vd f g scan q hlen1])]
      rw [chanMdhAt_mono vd f g scan q hlen1]
      rw [extract_within f g (q + chanHdrSize vd) (dims READ_DIM * 8) (by omega)]
      exact ih 1 _ _ _ _ hrec
    · obtain ⟨hlen1, hsamp, hmd, hlen2, hrec⟩ :=
        adcChanLoop_succ_inv vd f dims scan rem c q pos buf res (by omega) h
      rw [adcChanLoop_step vd (f ++ g) dims scan rem c q pos buf (by omega) (by simp; omega)
        (by rwa [chanMdhAt_mono vd f g scan q hlen1]) hmd]
      rw [extract_within f g (q + chanHdrSize vd) (dims READ_DIM * 8) (by omega)]
      exact ih (c + 1) _ _ _ _ hrec

theorem adc_read_mono (vd : Bool) (f g : File) (p : Nat) (dims pos0 : Coord) (buf : Buf)
    (res : Nat × Coord × Buf) (h : siemens_adc_read vd f p dims pos0 buf = .ok res) :
    siemens_adc_read vd (f ++ g) p dims pos0 buf = .ok res := by
  obtain ⟨hlen, lres, hl, hres⟩ := adc_read_ok_inv vd f p dims pos0 buf res h
  rw [adc_read_unfold vd (f ++ g) p dims pos0 buf (by simp; omega)]
  rw [extract_within f g p (scanHdrSize vd) (by omega)]
  rw [adcChanLoop_mono vd f g dims _ (dims COIL_DIM) 0 _ pos0 buf lres hl]
  rw [hres]

theorem driverLoop_mono (vd : Bool) (f g : File) (dims : Coord) :
    ∀ (n p : Nat) (buf : Buf) (out : Out),
      (driverLoop vd f dims n p buf out).err = none →
      driverLoop vd (f ++ g) dims n p buf out = driverLoop vd f dims n p buf out := by
  intro n
  induction n with
  | zero =>
    intro p buf out herr
    rfl
  | succ n ih =>
    intro p buf out herr
    cases hr : siemens_adc_read vd f p dims zeroCoord buf with
    | error e =>
      simp only [driverLoop, hr] at herr
      exact absurd herr (by simp)
    | ok res =>
      obtain ⟨p2, pos2, buf2⟩ := res
      have hr2 := adc_read_mono vd f g p dims zeroCoord buf (p2, pos2, buf2) hr
      simp only [driverLoop, hr] at herr
      simp only [driverLoop, hr, hr2]
      exact ih p2 buf2 _ herr

/-- C8: default record count.  With no explicit count (the `adcs == 0`
sentinel) the driver loop runs exactly `phase1 * phase2 * slice` times;
with a nonzero count it runs exactly that many times.  Each successful run
advances the stream by exactly that many record sizes, and appending bytes
to the file never changes a successful run — the count is never discovered
by scanning to end-of-file. -/
theorem C8_record_count (dims : Coord) :
    effAdcs 0 dims = dims PHS1_DIM * dims PHS2_DIM * dims SLICE_DIM ∧
    (∀ a, a ≠ 0 → effAdcs a dims = a) ∧
    (∀ (vd : Bool) (f : File) (adcs p : Nat) (buf : Buf) (out : Out),
      (driverLoop vd f dims (effAdcs adcs dims) p buf out).err = none →
      (driverLoop vd f dims (effAdcs adcs dims) p buf out).pos =
        p + effAdcs adcs dims * recSize vd (dims READ_DIM) (dims COIL_DIM)) ∧
    (∀ (vd : Bool) (f extra : File) (n p : Nat) (buf : Buf) (out : Out),
      (driverLoop vd f dims n p buf out).err = none →
      driverLoop vd (f ++ extra) dims n p buf out = driverLoop vd f dims n p buf out) := by
  refine ⟨by simp [effAdcs], fun a ha => by simp [effAdcs, ha], ?_, ?_⟩
  · intro vd f adcs p buf out herr
    exact driverLoop_pos vd f dims (effAdcs adcs dims) p buf out herr
  · intro vd f extra n p buf out herr
    exact driverLoop_mono vd f extra dims n p buf out herr

theorem C8_record_count_witness :
    effAdcs 0 wDims = 2 ∧
    (driverLoop false (synBytes false 1 1 wRecs) wDims (effAdcs 0 wDims) 0 wBuf
        zeroOut).pos =
      0 + effAdcs 0 wDims * recSize false (wDims READ_DIM) (wDims COIL_DIM) := by
  refine ⟨by decide, ?_⟩
  exact (C8_record_count wDims).2.2.1 false (synBytes false 1 1 wRecs) 0 0 wBuf zeroOut
    (by decide)

/-! VD channel-header noninterference. -/

theorem take_drop_congr (f g : File) (p n : Nat) (hlen : f.length = g.length)
    (h : ∀ i, p ≤ i → i < p + n → f.getD i 0 = g.getD i 0) :
    (f.drop p).take n = (g.drop p).take n := by
  apply List.ext_getElem
  · simp [hlen]
  · intro i h1 h2
    simp only [List.length_take, List.length_drop] at h1
    rw [List.getElem_take, List.getElem_drop, List.getElem_take, List.getElem_drop]
    have hb : p + i < f.length := by omega
    rw [← List.getD_eq_getElem f 0 hb, ← List.getD_eq_getElem g 0 (by omega)]
    exact h (p + i) (by omega) (by omega)

theorem adcChanLoop_vd_congr (f g : File) (dims : Coord) (scan : List Byte)
    (hlen : f.length = g.length) :
    ∀ (rem c q : Nat) (pos : Coord) (buf : Buf),
      (∀ j, j < rem → ∀ i,
        q + j * chanStride true (dims READ_DIM) + chanHdrSize true ≤ i →
        i < q + (j + 1) * chanStride true (dims READ_DIM) →
        f.getD i 0 = g.getD i 0) →
      adcChanLoop true f dims scan rem c q pos buf =
        adcChanLoop true g dims scan rem c q pos buf := by
  intro rem
  induction rem with
  | zero =>
    intro c q pos buf hag
    rfl
  | succ rem ih =>
    intro c q pos buf hag
    have e2 : chanStride true (dims READ_DIM) = chanHdrSize true + dims READ_DIM * 8 := rfl
    by_cases h1 : q + chanHdrSize true ≤ f.length
    · rw [adcChanLoop, adcChanLoop, xread_eq_ok f q _ h1, xread_eq_ok g q _ (by omega)]
      simp only [if_true]
      by_cases hsmp : dims READ_DIM ≠ (decodeMdh ((scan.drop 40).take 60)).samples
      · rw [if_pos hsmp, if_pos hsmp]
      · rw [if_neg hsmp, if_neg hsmp]
        by_cases hmd : md_is_index (if c = 0 then
            setCoord (Function.update pos COIL_DIM c) (decodeMdh ((scan.drop 40).take 60))
          else Function.update pos COIL_DIM c) dims = false
        · rw [if_pos hmd, if_pos hmd]
        · rw [if_neg hmd, if_neg hmd]
          by_cases h2 : q + chanHdrSize true + dims READ_DIM * 8 ≤ f.length
          · rw [xread_eq_ok f _ _ h2, xread_eq_ok g _ _ (by omega)]
            rw [show (g.drop (q + chanHdrSize true)).take (dims READ_DIM * 8) =
              (f.drop (q + chanHdrSize true)).take (dims READ_DIM * 8) from
              (take_drop_congr f g _ _ hlen (by
                intro i hi1 hi2
                exact hag 0 (by omega) i (by omega) (by omega))).symm]
            apply ih (c + 1)
            intro j hj i hi1 hi2
            have e5 : (j + 1) * chanStride true (dims READ_DIM) =
                j * chanStride true (dims READ_DIM) + chanStride true (dims READ_DIM) := by
              ring
            have e6 : (j + 1 + 1) * chanStride true (dims READ_DIM) =
                (j + 1) * chanStride true (dims READ_DIM) +
                  chanStride true (dims READ_DIM) := by ring
            exact hag (j + 1) (by omega) i (by omega) (by omega)
          · rw [xread_eq_err f _ _ (by omega), xread_eq_err g _ _ (by omega)]
    · rw [adcChanLoop, adcChanLoop, xread_eq_err f q _ (by omega),
        xread_eq_err g q _ (by omega)]

theorem adc_read_vd_congr (f g : File) (p : Nat) (dims pos0 : Coord) (buf : Buf)
    (hlen : f.length = g.length)
    (hagree : ∀ i, p ≤ i →
      i < p + recSize true (dims READ_DIM) (dims COIL_DIM) →
      ¬ inChanHdrVD (dims READ_DIM) (dims COIL_DIM) p i → f.getD i 0 = g.getD i 0) :
    siemens_adc_read true f p dims pos0 buf = siemens_adc_read true g p dims pos0 buf := by
  have e2 : chanStride true (dims READ_DIM) = chanHdrSize true + dims READ_DIM * 8 := rfl
  have e3 : chanHdrSize true = 32 := rfl
  have e4 : scanHdrSize true = 192 := rfl
  have erec : recSize true (dims READ_DIM) (dims COIL_DIM) =
      scanHdrSize true + dims COIL_DIM * chanStride true (dims READ_DIM) := rfl
  have echp : ∀ c, chanPos true (dims READ_DIM) p c =
      p + scanHdrSize true + c * chanStride true (dims READ_DIM) := by
    intro c
    simp [chanPos]
  by_cases hsl : p + scanHdrSize true ≤ f.length
  · have hscan : (g.drop p).take (scanHdrSize true) = (f.drop p).take (scanHdrSize true) := by
      apply (take_drop_congr f g p _ hlen ?_).symm
      intro i hi1 hi2
      apply hagree i hi1 (by
        have hmul : 0 ≤ dims COIL_DIM * chanStride true (dims READ_DIM) := Nat.zero_le _
        omega)
      rintro ⟨c, hc, hge, hlt⟩
      rw [echp c] at hge
      have hmul : 0 ≤ c * chanStride true (dims READ_DIM) := Nat.zero_le _
      omega
    rw [adc_read_unfold true f p dims pos0 buf hsl,
      adc_read_unfold true g p dims pos0 buf (by omega), hscan]
    rw [adcChanLoop_vd_congr f g dims ((f.drop p).take (scanHdrSize true)) hlen
      (dims COIL_DIM) 0 (p + scanHdrSize true) pos0 buf ?_]
    intro j hj i hi1 hi2
    have hstep1 : (j + 1) * chanStride true (dims READ_DIM) ≤
        dims COIL_DIM * chanStride true (dims READ_DIM) :=
      Nat.mul_le_mul_right _ (by omega)
    apply hagree i (by omega) (by omega)
    rintro ⟨c, hc, hge, hlt⟩
    rw [echp c] at hge hlt
    rcases Nat.lt_or_ge c (j + 1) with hcj | hcj
    · have hm2 : c * chanStride true (dims READ_DIM) ≤
          j * chanStride true (dims READ_DIM) :=
        Nat.mul_le_mul_right _ (by omega)
      omega
    · have hm2 : (j + 1) * chanStride true (dims READ_DIM) ≤
          c * chanStride true (dims READ_DIM) :=
        Nat.mul_le_mul_right _ hcj
      omega
  · unfold siemens_adc_read
    rw [xread_eq_err f p _ (by omega), xread_eq_err g p _ (by omega)]

/-- C10: VD channel-header noninterference.  For the VD layout the contents
of the per-channel channel headers never influence the result: two input
files of the same length that agree everywhere except possibly on the
channel-header byte ranges of the processed records produce the same driver
result — same derived coordinates, same validation outcome, and the same
output array. -/
theorem C10_vd_channel_header_noninterference (f g : File) (dims : Coord)
    (hlen : f.length = g.length) :
    ∀ (n start : Nat) (buf : Buf) (out : Out),
      (∀ i, start ≤ i →
        i < start + n * recSize true (dims READ_DIM) (dims COIL_DIM) →
        ¬ inChanHdrVDRun (dims READ_DIM) (dims COIL_DIM) start n i →
        f.getD i 0 = g.getD i 0) →
      driverLoop true f dims n start buf out = driverLoop true g dims n start buf out := by
  intro n
  induction n with
  | zero =>
    intro start buf out hag
    rfl
  | succ n ih =>
    intro start buf out hag
    have e2 : chanStride true (dims READ_DIM) = chanHdrSize true + dims READ_DIM * 8 := rfl
    have e3 : chanHdrSize true = 32 := rfl
    have e4 : scanHdrSize true = 192 := rfl
    have erec : recSize true (dims READ_DIM) (dims COIL_DIM) =
        scanHdrSize true + dims COIL_DIM * chanStride true (dims READ_DIM) := rfl
    have e1 : (n + 1) * recSize true (dims READ_DIM) (dims COIL_DIM) =
        n * recSize true (dims READ_DIM) (dims COIL_DIM) +
          recSize true (dims READ_DIM) (dims COIL_DIM) := by ring
    have hrec : siemens_adc_read true f start dims zeroCoord buf =
        siemens_adc_read true g start dims zeroCoord buf := by
      apply adc_read_vd_congr f g start dims zeroCoord buf hlen
      intro i hi1 hi2 hni
      apply hag i hi1 (by omega)
      rintro ⟨k, hk, hkreg⟩
      cases k with
      | zero =>
        apply hni
        rwa [show start + 0 * recSize true (dims READ_DIM) (dims COIL_DIM) = start from by
          omega] at hkreg
      | succ k =>
        obtain ⟨c, hc, hge, hlt⟩ := hkreg
        rw [show chanPos true (dims READ_DIM)
            (start + (k + 1) * recSize true (dims READ_DIM) (dims COIL_DIM)) c =
          start + (k + 1) * recSize true (dims READ_DIM) (dims COIL_DIM) +
            scanHdrSize true + c * chanStride true (dims READ_DIM) from by
            simp [chanPos]] at hge
        have hm1 : recSize true (dims READ_DIM) (dims COIL_DIM) ≤
            (k + 1) * recSize true (dims READ_DIM) (dims COIL_DIM) :=
          Nat.le_mul_of_pos_left _ (by omega)
        have hm2 : 0 ≤ c * chanStride true (dims READ_DIM) := Nat.zero_le _
        omega
    cases hr : siemens_adc_read true f start dims zeroCoord buf with
    | error e =>
      have hrg : siemens_adc_read true g start dims zeroCoord buf = .error e := by
        rw [← hrec]
        exact hr
      simp only [driverLoop, hr, hrg]
    | ok res =>
      obtain ⟨p2, pos2, buf2⟩ := res
      have hrg : siemens_adc_read true g start dims zeroCoord buf = .ok (p2, pos2, buf2) := by
        rw [← hrec]
        exact hr
      have hp2 : p2 = start + recSize true (dims READ_DIM) (dims COIL_DIM) :=
        adc_read_pos_adv true f start dims zeroCoord buf (p2, pos2, buf2) hr
      simp only [driverLoop, hr, hrg]
      apply ih p2 buf2 (md_copy_block dims pos2 out buf2)
      intro i hi1 hi2 hni
      apply hag i (by omega) (by omega)
      rintro ⟨k, hk, hkreg⟩
      cases k with
      | zero =>
        obtain ⟨c, hc, hge, hlt⟩ := hkreg
        rw [show chanPos true (dims READ_DIM)
            (start + 0 * recSize true (dims READ_DIM) (dims COIL_DIM)) c =
          start + scanHdrSize true + c * chanStride true (dims READ_DIM) from by
            simp [chanPos]] at hge hlt
        have hm1 : c + 1 ≤ dims COIL_DIM := hc
        have hm2 : (c + 1) * chanStride true (dims READ_DIM) ≤
            dims COIL_DIM * chanStride true (dims READ_DIM) :=
          Nat.mul_le_mul_right _ hm1
        have hm3 : (c + 1) * chanStride true (dims READ_DIM) =
            c * chanStride true (dims READ_DIM) + chanStride true (dims READ_DIM) := by ring
        omega
      | succ k =>
        apply hni
        refine ⟨k, by omega, ?_⟩
        rwa [show start + (k + 1) * recSize true (dims READ_DIM) (dims COIL_DIM) =
          p2 + k * recSize true (dims READ_DIM) (dims COIL_DIM) from by
            have hm : (k + 1) * recSize true (dims READ_DIM) (dims COIL_DIM) =
              k * recSize true (dims READ_DIM) (dims COIL_DIM) +
                recSize true (dims READ_DIM) (dims COIL_DIM) := by ring
            omega] at hkreg

theorem C10_vd_channel_header_noninterference_witness :
    driverLoop true (wVDFile [wRecB]) wDims 1 28 wBuf zeroOut =
      driverLoop true ((wVDFile [wRecB]).set 230 99) wDims 1 28 wBuf zeroOut := by
  apply C10_vd_channel_header_noninterference (wVDFile [wRecB])
    ((wVDFile [wRecB]).set 230 99) wDims (by simp) 1 28 wBuf zeroOut
  intro i hi1 hi2 hni
  by_cases hie : i = 230
  · exfalso
    apply hni
    subst hie
    exact ⟨0, by decide, 0, by decide, by decide, by decide⟩
  · rw [List.getD_eq_getElem?_getD, List.getD_eq_getElem?_getD,
      List.getElem?_set_ne (fun h => hie (h.symm))]

end Twix
